import Mathlib

/-!
# Touch actualizer (`actualizer.c` / `actualizer.h`)

A shallow embedding of the touch-event replay and frame-compositing engine.

Modelling conventions.

* `uint8_t` is `Fin 256`.
* `int` and `long` are `Int`.  Signed overflow is undefined in C, so the
  arithmetic is left unbounded; every statement below is about values for
  which the C arithmetic does not overflow.
* `image_data` is a raw pointer and `Frame` carries no buffer size, so the
  pixel memory is a map from the byte offset relative to `image_data` to the
  byte stored there.  A store through `pixel[k]` updates that offset, whether
  or not the offset lies inside the `linesize * higth` bytes of the picture.
* A `NULL` dereference or an access outside the `active_events` array is
  undefined behaviour; the functions that can reach one return `Option`, and
  `none` stands for it.
* The compile-time switch `INVERTED_TOUCH_COLOR` is the parameter `inverted`.
* A `for` loop over an inclusive integer range is `forLoop`.
-/

namespace Actualizer

/-! ## Constants of `actualizer.h` -/

abbrev N_ACTIVE_EVENTS : Nat := 10

def R_MOVE_TOUCH_RADIUS : Int := 25

def R_DOWN_TOUCH_RADIUS : Int := 15

def STRNCMP_LIMIT : Nat := 50

/-! ## Data model -/

abbrev Byte := Fin 256

structure Frame where
  image_data : Int → Byte
  linesize : Int
  width : Int
  higth : Int
  timestamp : Int

structure RGBA_color where
  r : Byte
  g : Byte
  b : Byte
  a : Byte
deriving DecidableEq, Repr

inductive ACTION where
  | down
  | move
  | up
deriving DecidableEq, Repr

structure Coordinate where
  x : Int
  y : Int
deriving DecidableEq, Repr

structure Event where
  action : ACTION
  coord : Coordinate
deriving DecidableEq, Repr

/-- One element of the JSON array `events`, with the five members that
`parse_next_event` reads, each present and of the JSON type the code expects
(`action` a string, the others integers that fit their C type). -/
structure JsonEvent where
  action : String
  index : Int
  timestamp : Int
  x : Int
  y : Int
deriving DecidableEq, Repr

structure TouchData where
  json_events : List JsonEvent
  n_events : Int
  next_event : Int
  touch_color : RGBA_color
deriving DecidableEq, Repr

structure TouchMask where
  mask : List Byte
  radius : Int
deriving DecidableEq, Repr

structure TouchActualizer where
  active_events : Fin N_ACTIVE_EVENTS → Option Event
  touch_data : TouchData
  move_touch_mask : TouchMask
  down_touch_mask : TouchMask

/-! ## Control-flow and memory helpers -/

/-- The loop `for (int i = lo; i <= hi; i++) s = body i s`. -/
def forLoop {σ : Type} (lo hi : Int) (body : Int → σ → σ) (s : σ) : σ :=
  (List.range (hi + 1 - lo).toNat).foldl (fun acc (k : Nat) => body (lo + (k : Int)) acc) s

/-- The store `p[addr] = v`. -/
def poke (mem : Int → Byte) (addr : Int) (v : Byte) : Int → Byte :=
  fun a => if a = addr then v else mem a

/-! ## Frame methods -/

def Frame_new (image_data : Int → Byte) (linesize width higth timestamp : Int) : Frame :=
  { image_data := image_data, linesize := linesize, width := width, higth := higth,
    timestamp := timestamp }

def colorizePixel (this : Frame) (coord : Coordinate) (touch_color : RGBA_color) : Frame :=
  if coord.y > this.higth ∨ coord.y < 0 ∨ coord.x > this.width ∨ coord.x < 0 then
    this
  else
    let pixel := coord.y * this.linesize + coord.x * 4
    let m0 := this.image_data
    let m1 := poke m0 pixel touch_color.r
    let m2 := poke m1 (pixel + 1) touch_color.g
    let m3 := poke m2 (pixel + 2) touch_color.b
    let m4 := poke m3 (pixel + 3) 255
    { this with image_data := m4 }

def invertPixel (this : Frame) (coord : Coordinate) : Frame :=
  if coord.y > this.higth ∨ coord.y < 0 ∨ coord.x > this.width ∨ coord.x < 0 then
    this
  else
    let pixel := coord.y * this.linesize + coord.x * 4
    let m0 := this.image_data
    let m1 := poke m0 pixel (m0 pixel ^^^ 0xFF)
    let m2 := poke m1 (pixel + 1) (m1 (pixel + 1) ^^^ 0xFF)
    let m3 := poke m2 (pixel + 2) (m2 (pixel + 2) ^^^ 0xFF)
    let m4 := poke m3 (pixel + 3) (m3 (pixel + 3) ^^^ 0x00)
    { this with image_data := m4 }

/-! ## Event methods -/

/-- The terminating character of a C string. -/
def NUL : Char := Char.ofNat 0

/-- The C library function `strncmp` on strings given by their characters
before the terminator: at most `n` characters are compared, and the comparison
stops at the first difference or at a terminator.  The code uses the result
only through `== 0`. -/
def strncmp : List Char → List Char → Nat → Int
  | _, _, 0 => 0
  | [], [], _ + 1 => 0
  | [], c2 :: _, _ + 1 => 0 - (c2.toNat : Int)
  | c1 :: _, [], _ + 1 => (c1.toNat : Int)
  | c1 :: r1, c2 :: r2, n + 1 =>
    if c1 ≠ c2 then (c1.toNat : Int) - (c2.toNat : Int)
    else if c1 = NUL then 0
    else strncmp r1 r2 n

def parse_action (str : String) : ACTION :=
  if strncmp str.data "move".data STRNCMP_LIMIT = 0 then
    ACTION.move
  else if strncmp str.data "down".data STRNCMP_LIMIT = 0 ∨
          strncmp str.data "5".data STRNCMP_LIMIT = 0 ∨
          strncmp str.data "7".data STRNCMP_LIMIT = 0 ∨
          strncmp str.data "9".data STRNCMP_LIMIT = 0 then
    ACTION.down
  else if strncmp str.data "up".data STRNCMP_LIMIT = 0 ∨
          strncmp str.data "6".data STRNCMP_LIMIT = 0 ∨
          strncmp str.data "8".data STRNCMP_LIMIT = 0 ∨
          strncmp str.data "10".data STRNCMP_LIMIT = 0 then
    ACTION.up
  else
    ACTION.up

def Event_new (action : ACTION) (x y : Int) : Event :=
  { action := action, coord := { x := x, y := y } }

/-! ## TouchData methods -/

/-- The part of `TouchData_new` after the file has been read and parsed: the
array `events` and the colour record are given. -/
def TouchData_new (json_events : List JsonEvent) (touch_color : RGBA_color) : TouchData :=
  { json_events := json_events, n_events := (json_events.length : Int), next_event := 0,
    touch_color := touch_color }

/-- The outputs are `(index, action, timestamp, x, y)`.  `json_array_get`
yields `NULL` outside the array, and `parse_action` then reads through a null
pointer: `none`. -/
def parse_next_event (this : TouchData) : Option (Int × ACTION × Int × Int × Int) :=
  if this.next_event < 0 then none
  else
    match this.json_events.get? this.next_event.toNat with
    | none => none
    | some event =>
      some (event.index, parse_action event.action, event.timestamp, event.x, event.y)

/-! ## TouchMask methods -/

/-- The `malloc`ed stencil starts out as zeros here; every cell that
`actualizeEvent` reads is stored by the loops first. -/
def TouchMask_new (radius : Int) : TouchMask :=
  let mask0 : List Byte := List.replicate ((2 * radius + 1) * (2 * radius + 1)).toNat 0
  let mask := forLoop (-radius) radius (fun y m =>
    forLoop (-radius) radius (fun x m =>
      let y_index := (y + radius) * 2 * radius
      if x * x + y * y ≤ radius * radius then
        m.set (y_index + x + radius).toNat 255
      else
        m.set (y_index + x + radius).toNat 0) m) mask0
  { mask := mask, radius := radius }

/-! ## TouchActualizer methods -/

def TouchActualizer_new (json_events : List JsonEvent) (touch_color : RGBA_color)
    (width higth : Int) : TouchActualizer :=
  let min_size := if width < higth then width else higth
  { active_events := fun _ => none,
    touch_data := TouchData_new json_events touch_color,
    move_touch_mask := TouchMask_new (Int.tdiv min_size R_MOVE_TOUCH_RADIUS),
    down_touch_mask := TouchMask_new (Int.tdiv min_size R_DOWN_TOUCH_RADIUS) }

/-- The three branches in the body of the `while` loop of
`update_active_events` that store into `active_events[index]`. -/
def apply_record (active_events : Fin N_ACTIVE_EVENTS → Option Event)
    (index : Fin N_ACTIVE_EVENTS) (action : ACTION) (x y : Int) :
    Fin N_ACTIVE_EVENTS → Option Event :=
  if action = ACTION.up then
    Function.update active_events index none
  else
    match active_events index with
    | none => Function.update active_events index (some (Event_new action x y))
    | some ev =>
      Function.update active_events index
        (some { ev with action := action, coord := { ev.coord with x := x, y := y } })

/-- The `while` loop of `update_active_events`, run for at most `fuel`
iterations. -/
def update_active_events_loop : Nat → TouchActualizer → Frame → Option TouchActualizer
  | 0, this, _ => some this
  | fuel + 1, this, frame =>
    let td := this.touch_data
    if td.next_event < td.n_events then
      match parse_next_event td with
      | none => none
      | some (index, action, timestamp, x, y) =>
        if timestamp > frame.timestamp then some this
        else if index ≥ td.n_events then some this
        else if h : 0 ≤ index ∧ index < (N_ACTIVE_EVENTS : Int) then
          update_active_events_loop fuel
            { this with
              active_events :=
                apply_record this.active_events ⟨index.toNat, by omega⟩ action x y,
              touch_data := { td with next_event := td.next_event + 1 } } frame
        else none
    else some this

/-- Every iteration that does not leave the loop increments `next_event`, so
`n_events - next_event` iterations are enough (`update_loop_fuel`). -/
def update_active_events (this : TouchActualizer) (frame : Frame) : Option TouchActualizer :=
  update_active_events_loop (this.touch_data.n_events - this.touch_data.next_event).toNat
    this frame

/-- The read `touch_mask->mask[y_index+x]` of `actualizeEvent`, with
`y_index = y*2*radius`. -/
def mask_cell (touch_mask : TouchMask) (y x : Int) : Byte :=
  let y_index := y * 2 * touch_mask.radius
  touch_mask.mask.getD (y_index + x).toNat 0

def actualizeEvent (inverted : Bool) (this : TouchActualizer) (event : Event)
    (frame : Frame) : Frame :=
  let touch_mask :=
    if event.action = ACTION.down then this.down_touch_mask else this.move_touch_mask
  forLoop 0 (2 * touch_mask.radius) (fun y fr =>
    forLoop 0 (2 * touch_mask.radius) (fun x fr =>
      if mask_cell touch_mask y x ≠ 0 then
        let coord : Coordinate :=
          { x := event.coord.x - touch_mask.radius + x,
            y := event.coord.y - touch_mask.radius + y }
        if inverted then invertPixel fr coord
        else colorizePixel fr coord this.touch_data.touch_color
      else fr) fr) frame

def actualizeEvents (inverted : Bool) (this : TouchActualizer) (frame : Frame) : Frame :=
  (List.finRange N_ACTIVE_EVENTS).foldl (fun fr i =>
    match this.active_events i with
    | none => fr
    | some event => actualizeEvent inverted this event fr) frame

def actualize (inverted : Bool) (this : TouchActualizer) (frame : Frame) :
    Option (TouchActualizer × Frame) :=
  match update_active_events this frame with
  | none => none
  | some this1 => some (this1, actualizeEvents inverted this1 frame)

def revert_actualize (inverted : Bool) (this : TouchActualizer) (frame : Frame) : Frame :=
  actualizeEvents inverted this frame

/-! ## Auxiliary definitions for the statements and proofs -/

/-- Outcome of one test-and-body round of the `while` loop. -/
inductive Round where
  | fault
  | leave
  | again (next : TouchActualizer)

/-- One round of the `while` loop of `update_active_events`: the loop test
and the body, up to `td->next_event++`. -/
def update_round (this : TouchActualizer) (frame : Frame) : Round :=
  let td := this.touch_data
  if td.next_event < td.n_events then
    match parse_next_event td with
    | none => Round.fault
    | some (index, action, timestamp, x, y) =>
      if timestamp > frame.timestamp then Round.leave
      else if index ≥ td.n_events then Round.leave
      else if h : 0 ≤ index ∧ index < (N_ACTIVE_EVENTS : Int) then
        Round.again
          { this with
            active_events :=
              apply_record this.active_events ⟨index.toNat, by omega⟩ action x y,
            touch_data := { td with next_event := td.next_event + 1 } }
      else Round.fault
  else Round.leave

/-- Replaying one record on the table, as the loop body does for a record
whose index is inside the table. -/
def replay_record (active_events : Fin N_ACTIVE_EVENTS → Option Event) (e : JsonEvent) :
    Fin N_ACTIVE_EVENTS → Option Event :=
  if h : 0 ≤ e.index ∧ e.index < (N_ACTIVE_EVENTS : Int) then
    apply_record active_events ⟨e.index.toNat, by omega⟩ (parse_action e.action) e.x e.y
  else active_events

/-- The pixel operation selected by the build switch in `actualizeEvent`. -/
def pixel_op (inverted : Bool) (touch_color : RGBA_color) (coord : Coordinate)
    (fr : Frame) : Frame :=
  if inverted then invertPixel fr coord else colorizePixel fr coord touch_color

/-- A frame operation that keeps the geometry and XORs the memory with a
pattern that depends on the geometry only. -/
def XorOp (g : Frame → Frame) : Prop :=
  ∀ l w h t : Int, ∃ m : Int → Byte, ∀ mem : Int → Byte,
    g ⟨mem, l, w, h, t⟩ = ⟨fun a => mem a ^^^ m a, l, w, h, t⟩

/-- The table as the list of its `N_ACTIVE_EVENTS` entries, slot 0 first. -/
def slots (active_events : Fin N_ACTIVE_EVENTS → Option Event) : List (Option Event) :=
  (List.finRange N_ACTIVE_EVENTS).map active_events

/-! ## Concrete inputs -/

def green : RGBA_color := { r := 0, g := 255, b := 0, a := 255 }

/-- A 64x64 RGBA picture, 256 bytes per row, every byte zero. -/
def blank64 (timestamp : Int) : Frame := Frame_new (fun _ => 0) 256 64 64 timestamp

def down_at (index x y : Int) : JsonEvent :=
  { action := "down", index := index, timestamp := 0, x := x, y := y }

def move_later (index x y : Int) : JsonEvent :=
  { action := "move", index := index, timestamp := 50, x := x, y := y }

/-- The timeline of scenarios A and B: one Down on slot 0 at (10,10), time 0. -/
def scenario_timeline : List JsonEvent := [down_at 0 10 10]

/-- Scenarios A and B after `update_active_events` at timestamp 0: slot 0 holds
a Down touch at (10,10) and the cursor is 1. -/
def scenario_state : TouchActualizer :=
  { active_events := Function.update (fun _ => none) 0 (some ⟨ACTION.down, ⟨10, 10⟩⟩),
    touch_data :=
      { json_events := scenario_timeline, n_events := 1, next_event := 1,
        touch_color := green },
    move_touch_mask := TouchMask_new 2,
    down_touch_mask := TouchMask_new 4 }

/-- A Down on slot 0 at time 0 followed by a Move on slot 0 at time 50. -/
def two_step_timeline : List JsonEvent := [down_at 0 10 10, move_later 0 12 12]

/-- The state after replaying `two_step_timeline` up to a timestamp in
`[0, 50)`: the Down is applied, the cursor rests on the Move. -/
def two_step_state : TouchActualizer :=
  { active_events := Function.update (fun _ => none) 0 (some ⟨ACTION.down, ⟨10, 10⟩⟩),
    touch_data :=
      { json_events := two_step_timeline, n_events := 2, next_event := 1,
        touch_color := green },
    move_touch_mask := TouchMask_new 2,
    down_touch_mask := TouchMask_new 4 }

/-! ## Auxiliary definitions for the replay, the stencil and the order of the slots -/

/-- A sequence of `update_active_events` calls, one per frame, each on the
state the previous call left. -/
def update_many (this : TouchActualizer) : List Frame → Option TouchActualizer
  | [] => some this
  | frame :: frames => (update_active_events this frame).bind (fun t => update_many t frames)

/-- The last record with index `i` in a list of records, if there is one. -/
def last_record (i : Int) (l : List JsonEvent) : Option JsonEvent :=
  (l.filter (fun e => decide (e.index = i))).getLast?

/-- What a slot holds after a record for it has been replayed: nothing after
an Up, and the action and coordinates of the record after a Down or a Move. -/
def slot_after (e : JsonEvent) : Option Event :=
  if parse_action e.action = ACTION.up then none
  else some ⟨parse_action e.action, ⟨e.x, e.y⟩⟩

/-- The table is the replay, from the empty table, of the records before the
cursor. -/
def TableTracksCursor (this : TouchActualizer) : Prop :=
  0 ≤ this.touch_data.next_event ∧
  this.active_events
    = (this.touch_data.json_events.take this.touch_data.next_event.toNat).foldl
        replay_record (fun _ => none)

/-- The state after the whole `two_step_timeline` has been replayed: the Move
has updated slot 0 in place and the cursor is 2. -/
def two_step_final : TouchActualizer :=
  { active_events :=
      apply_record (apply_record (fun _ => none) 0 ACTION.down 10 10) 0 ACTION.move 12 12,
    touch_data :=
      { json_events := two_step_timeline, n_events := 2, next_event := 2,
        touch_color := green },
    move_touch_mask := TouchMask_new 2,
    down_touch_mask := TouchMask_new 4 }

/-- The index `y_index+x+radius` that `TouchMask_new` stores at, for the
offsets `(x, y)` of the loops, with `y_index = (y+radius)*2*radius`. -/
def stencil_write_index (radius y x : Int) : Int :=
  (y + radius) * 2 * radius + x + radius

/-- The index `y_index+x` that `actualizeEvent` reads at, for row `y` and
column `x`, with `y_index = y*2*radius`. -/
def stencil_read_index (radius y x : Int) : Int :=
  y * 2 * radius + x

/-- The number of cells that `TouchMask_new` allocates. -/
def stencil_size (radius : Int) : Int :=
  (2 * radius + 1) * (2 * radius + 1)

/-- The two loops of `actualizeEvent` over the stencil, with the pixel effect
as a parameter. -/
def stencil_loops {σ : Type} (touch_mask : TouchMask) (event : Event)
    (effect : Coordinate → σ → σ) (s : σ) : σ :=
  forLoop 0 (2 * touch_mask.radius) (fun y s1 =>
    forLoop 0 (2 * touch_mask.radius) (fun x s2 =>
      if mask_cell touch_mask y x ≠ 0 then
        effect { x := event.coord.x - touch_mask.radius + x,
                 y := event.coord.y - touch_mask.radius + y } s2
      else s2) s1) s

/-- The coordinates of the set stencil cells, row by row and column by column,
for a touch at `event.coord`. -/
def painted_coords (touch_mask : TouchMask) (event : Event) : List Coordinate :=
  (List.range (2 * touch_mask.radius + 1).toNat).flatMap (fun (row : Nat) =>
    (List.range (2 * touch_mask.radius + 1).toNat).filterMap (fun (col : Nat) =>
      if mask_cell touch_mask (row : Int) (col : Int) ≠ 0 then
        some { x := event.coord.x - touch_mask.radius + (col : Int),
               y := event.coord.y - touch_mask.radius + (row : Int) }
      else none))

/-- The loop of `actualizeEvents` with the slots visited in the given order;
`actualizeEvents` visits them in the order `0, 1, ..., N_ACTIVE_EVENTS-1`. -/
def actualizeEvents_in_order (inverted : Bool) (this : TouchActualizer)
    (order : List (Fin N_ACTIVE_EVENTS)) (frame : Frame) : Frame :=
  order.foldl (fun fr i =>
    match this.active_events i with
    | none => fr
    | some event => actualizeEvent inverted this event fr) frame

/-- The stencil that `actualizeEvent` selects for a touch. -/
def selected_mask (this : TouchActualizer) (event : Event) : TouchMask :=
  if event.action = ACTION.down then this.down_touch_mask else this.move_touch_mask

/-- The coordinates at which the indicator of slot `i` applies the pixel
effect; none for an empty slot. -/
def slot_coords (this : TouchActualizer) (i : Fin N_ACTIVE_EVENTS) : List Coordinate :=
  match this.active_events i with
  | none => []
  | some event => painted_coords (selected_mask this event) event

/-- The coordinates at which the paint pass applies the pixel effect, in the
order of the calls. -/
def all_painted_coords (this : TouchActualizer) : List Coordinate :=
  (List.finRange N_ACTIVE_EVENTS).flatMap (slot_coords this)

/-- The call `invertPixel(frame, coord)` inverts the byte at offset `a`: the
coordinate is not skipped and `a` is the R, G or B byte of its pixel. -/
def inverts (frame : Frame) (coord : Coordinate) (a : Int) : Bool :=
  decide (¬ (coord.y > frame.higth ∨ coord.y < 0 ∨ coord.x > frame.width ∨ coord.x < 0) ∧
    (a = coord.y * frame.linesize + coord.x * 4 ∨
     a = coord.y * frame.linesize + coord.x * 4 + 1 ∨
     a = coord.y * frame.linesize + coord.x * 4 + 2))

/-- The number of `invertPixel` calls of the paint pass that invert the byte
at offset `a`. -/
def hit_count (this : TouchActualizer) (frame : Frame) (a : Int) : Nat :=
  (all_painted_coords this).countP (fun c => inverts frame c a)

/-- The number of slots whose indicator inverts the byte at offset `a`. -/
def covering_indicators (this : TouchActualizer) (frame : Frame) (a : Int) : Nat :=
  (List.finRange N_ACTIVE_EVENTS).countP (fun i =>
    (slot_coords this i).any (fun c => inverts frame c a))

/-- One row of stores: `m[base + kx] = v kx` for `kx = 0, ..., w-1`, in this
order. -/
def fill_row (v : Nat → Byte) (base w : Nat) (m : List Byte) : List Byte :=
  (List.range w).foldl (fun acc (kx : Nat) => acc.set (base + kx) (v kx)) m

/-- The first `rows` rows of stores, row `ky` starting at `ky * stride` and
holding `stride + 1` cells. -/
def fill_rows (d : Nat → Nat → Byte) (stride rows : Nat) (m : List Byte) : List Byte :=
  (List.range rows).foldl (fun acc (ky : Nat) => fill_row (d ky) (ky * stride) (stride + 1) acc) m

/-- The value that `TouchMask_new` stores for row `ky` and column `kx`,
counted from 0: the disk test at the offsets `(kx - n, ky - n)`. -/
def disk_value (n : Nat) (ky kx : Nat) : Byte :=
  if ((kx : Int) - n) * ((kx : Int) - n) + ((ky : Int) - n) * ((ky : Int) - n)
      ≤ (n : Int) * n then 255 else 0

/-- Two Downs at the same place, on slots 0 and 1, at time 0. -/
def twin_timeline : List JsonEvent := [down_at 0 10 10, down_at 1 10 10]

/-- The state after `twin_timeline` has been replayed: slots 0 and 1 hold a
Down at (10,10), every other slot is empty. -/
def twin_state : TouchActualizer :=
  { active_events :=
      apply_record (apply_record (fun _ => none) 0 ACTION.down 10 10) 1 ACTION.down 10 10,
    touch_data :=
      { json_events := twin_timeline, n_events := 2, next_event := 2, touch_color := green },
    move_touch_mask := TouchMask_new 2,
    down_touch_mask := TouchMask_new 4 }

/-- A 64x64 RGBA picture with 512 bytes per row, every byte zero. -/
def padded64 (timestamp : Int) : Frame := Frame_new (fun _ => 0) 512 64 64 timestamp

/-- Two Downs at (2,10) on slots 0 and 1 and a Down at (60,10) on slot 2, all
at time 0. -/
def triple_timeline : List JsonEvent := [down_at 0 2 10, down_at 1 2 10, down_at 2 60 10]

/-- The state after `triple_timeline` has been replayed. -/
def triple_state : TouchActualizer :=
  { active_events :=
      apply_record
        (apply_record (apply_record (fun _ => none) 0 ACTION.down 2 10) 1 ACTION.down 2 10)
        2 ACTION.down 60 10,
    touch_data :=
      { json_events := triple_timeline, n_events := 3, next_event := 3, touch_color := green },
    move_touch_mask := TouchMask_new 2,
    down_touch_mask := TouchMask_new 4 }

/-- How the `while` loop of `update_active_events` stands after a number of
evaluations of its test: still running, stopped by an access outside the
table or through `NULL`, or left with a state. -/
inductive LoopResult where
  | running
  | fault
  | done (this : TouchActualizer)

/-- The `while` loop of `update_active_events` followed for at most `rounds`
evaluations of the loop test, one `update_round` each; `running` when the loop
has not left by then. -/
def update_loop_result : Nat → TouchActualizer → Frame → LoopResult
  | 0, _, _ => LoopResult.running
  | rounds + 1, this, frame =>
    match update_round this frame with
    | Round.fault => LoopResult.fault
    | Round.leave => LoopResult.done this
    | Round.again next => update_loop_result rounds next frame

/-! ## Bytes -/

set_option maxRecDepth 100000 in
theorem byte_xor_ff_val : ∀ b : Byte, (b ^^^ 0xFF).val = 255 - b.val := by decide

set_option maxRecDepth 100000 in
theorem byte_xor_zero : ∀ b : Byte, b ^^^ 0x00 = b := by decide

set_option maxRecDepth 100000 in
theorem byte_xor_ff_ff : ∀ b : Byte, (b ^^^ 0xFF) ^^^ 0xFF = b := by decide

theorem byte_xor_val (a b : Byte) : (a ^^^ b).val = a.val ^^^ b.val := by
  have h : (a ^^^ b).val = (a.val ^^^ b.val) % 256 := rfl
  rw [h]
  apply Nat.mod_eq_of_lt
  exact @Nat.xor_lt_two_pow a.val b.val 8 a.isLt b.isLt

theorem byte_xor_assoc (a b c : Byte) : (a ^^^ b) ^^^ c = a ^^^ (b ^^^ c) := by
  apply Fin.ext
  simp only [byte_xor_val, Nat.xor_assoc]

theorem byte_xor_comm (a b : Byte) : a ^^^ b = b ^^^ a := by
  apply Fin.ext
  simp only [byte_xor_val, Nat.xor_comm]

theorem byte_xor_self (a : Byte) : a ^^^ a = 0 := by
  apply Fin.ext
  simp only [byte_xor_val, Nat.xor_self]
  rfl

theorem byte_xor_cancel (a b : Byte) : (a ^^^ b) ^^^ b = a := by
  rw [byte_xor_assoc, byte_xor_self]
  exact byte_xor_zero a

/-! ## `strncmp` and `parse_action` -/

theorem char_toNat_inj {c d : Char} (h : c.toNat = d.toNat) : c = d := by
  rw [← Char.ofNat_toNat c, ← Char.ofNat_toNat d, h]

theorem char_toNat_ne_zero {c : Char} (h : c ≠ NUL) : c.toNat ≠ 0 := by
  intro h0
  apply h
  apply char_toNat_inj
  rw [h0]
  rfl

theorem strncmp_eq_zero_iff (s t : List Char) (n : Nat)
    (hs : ∀ c ∈ s, c ≠ NUL) (ht : ∀ c ∈ t, c ≠ NUL) (hn : t.length < n) :
    strncmp s t n = 0 ↔ s = t := by
  induction s generalizing t n with
  | nil =>
    cases n with
    | zero => omega
    | succ n =>
      cases t with
      | nil => simp [strncmp]
      | cons c2 r2 =>
        have := char_toNat_ne_zero (ht c2 (by simp))
        simp [strncmp]
        omega
  | cons c1 r1 ih =>
    cases n with
    | zero => omega
    | succ n =>
      have h1 : c1 ≠ NUL := hs c1 (by simp)
      cases t with
      | nil =>
        have := char_toNat_ne_zero h1
        simp [strncmp]
        omega
      | cons c2 r2 =>
        simp only [strncmp]
        by_cases hc : c1 = c2
        · subst hc
          simp [h1]
          apply ih
          · intro c hc; exact hs c (by simp [hc])
          · intro c hc; exact ht c (by simp [hc])
          · simpa using hn
        · have : (c1.toNat : Int) - c2.toNat ≠ 0 := by
            intro h
            apply hc
            apply char_toNat_inj
            omega
          simp [hc, this]

theorem strncmp_literal (s t : String) (hs : ∀ c ∈ s.data, c ≠ NUL)
    (ht : ∀ c ∈ t.data, c ≠ NUL) (hn : t.data.length < STRNCMP_LIMIT) :
    strncmp s.data t.data STRNCMP_LIMIT = 0 ↔ s = t := by
  rw [strncmp_eq_zero_iff s.data t.data STRNCMP_LIMIT hs ht hn]
  constructor
  · intro h; exact String.ext h
  · intro h; rw [h]

/-! ## The replay loop -/

theorem update_loop_round (fuel : Nat) (this : TouchActualizer) (frame : Frame) :
    update_active_events_loop (fuel + 1) this frame =
      match update_round this frame with
      | Round.fault => none
      | Round.leave => some this
      | Round.again next => update_active_events_loop fuel next frame := by
  simp only [update_active_events_loop, update_round]
  split
  · split
    · rfl
    · split
      · rfl
      · split
        · rfl
        · split <;> rfl
  · rfl

theorem update_round_again {this next : TouchActualizer} {frame : Frame}
    (h : update_round this frame = Round.again next) :
    ∃ e, 0 ≤ this.touch_data.next_event ∧
      this.touch_data.next_event < this.touch_data.n_events ∧
      this.touch_data.json_events.get? this.touch_data.next_event.toNat = some e ∧
      e.timestamp ≤ frame.timestamp ∧ e.index < this.touch_data.n_events ∧
      0 ≤ e.index ∧ e.index < (N_ACTIVE_EVENTS : Int) ∧
      next.active_events = replay_record this.active_events e ∧
      next.touch_data = { this.touch_data with next_event := this.touch_data.next_event + 1 } ∧
      next.move_touch_mask = this.move_touch_mask ∧
      next.down_touch_mask = this.down_touch_mask := by
  unfold update_round parse_next_event at h
  simp only at h
  split at h
  · rename_i hlt
    split at h
    · cases h
    · rename_i index action timestamp x y hp
      split at hp
      · cases hp
      · rename_i hneg
        split at hp
        · cases hp
        · rename_i e he
          simp only [Option.some.injEq, Prod.mk.injEq] at hp
          obtain ⟨h1, h2, h3, h4, h5⟩ := hp
          subst h1 h2 h3 h4 h5
          split at h
          · cases h
          · split at h
            · cases h
            · split at h
              · rename_i hts hidx hin
                simp only [Round.again.injEq] at h
                subst h
                refine ⟨e, by omega, hlt, he, by omega, by omega, hin.1, hin.2, ?_, rfl, rfl, rfl⟩
                unfold replay_record
                rw [dif_pos hin]
              · cases h
  · cases h

theorem update_round_more_time {this : TouchActualizer} {f1 f2 : Frame}
    (ht : f1.timestamp ≤ f2.timestamp) :
    (∀ next, update_round this f1 = Round.again next → update_round this f2 = Round.again next) ∧
    (update_round this f1 = Round.fault → update_round this f2 = Round.fault) := by
  unfold update_round
  simp only
  split
  · split
    · simp
    · rename_i index action timestamp x y hp
      by_cases h1 : timestamp > f1.timestamp
      · simp [h1]
      · have h2 : ¬ timestamp > f2.timestamp := by omega
        simp only [h1, h2, if_false]
        simp
  · simp

theorem update_unroll (this : TouchActualizer) (frame : Frame) :
    update_active_events this frame =
      match update_round this frame with
      | Round.fault => none
      | Round.leave => some this
      | Round.again next => update_active_events next frame := by
  unfold update_active_events
  by_cases hc : this.touch_data.next_event < this.touch_data.n_events
  · obtain ⟨k, hk⟩ : ∃ k, (this.touch_data.n_events - this.touch_data.next_event).toNat = k + 1 :=
      ⟨(this.touch_data.n_events - this.touch_data.next_event).toNat - 1, by omega⟩
    rw [hk, update_loop_round]
    cases hr : update_round this frame with
    | fault => rfl
    | leave => rfl
    | again next =>
      obtain ⟨e, -, -, -, -, -, -, -, -, htd, -, -⟩ := update_round_again hr
      simp only [htd]
      have : k = (this.touch_data.n_events - (this.touch_data.next_event + 1)).toNat := by omega
      rw [this]
  · have h0 : (this.touch_data.n_events - this.touch_data.next_event).toNat = 0 := by omega
    rw [h0]
    simp [update_active_events_loop, update_round, hc]

/-- More fuel than `n_events - next_event` does not change the result of the
loop: the loop has left by then. -/
theorem update_loop_fuel (fuel : Nat) (this : TouchActualizer) (frame : Frame)
    (h : (this.touch_data.n_events - this.touch_data.next_event).toNat ≤ fuel) :
    update_active_events_loop fuel this frame = update_active_events this frame := by
  induction fuel generalizing this with
  | zero =>
    unfold update_active_events
    have h0 : (this.touch_data.n_events - this.touch_data.next_event).toNat = 0 := by omega
    rw [h0]
  | succ fuel ih =>
    rw [update_loop_round, update_unroll]
    cases hr : update_round this frame with
    | fault => rfl
    | leave => rfl
    | again next =>
      obtain ⟨e, -, hlt, -, -, -, -, -, -, htd, -, -⟩ := update_round_again hr
      simp only
      apply ih
      rw [htd]
      simp only
      omega

theorem update_replay_twice (this : TouchActualizer) (f1 f2 : Frame)
    (ht : f1.timestamp ≤ f2.timestamp) :
    (update_active_events this f1).bind (fun t => update_active_events t f2)
      = update_active_events this f2 := by
  generalize hm : (this.touch_data.n_events - this.touch_data.next_event).toNat = m
  induction m generalizing this with
  | zero =>
    have hr : ∀ f, update_round this f = Round.leave := by
      intro f
      have : ¬ this.touch_data.next_event < this.touch_data.n_events := by omega
      simp [update_round, this]
    rw [update_unroll this f1, hr f1]
    rfl
  | succ m ih =>
    rw [update_unroll this f1]
    cases hr : update_round this f1 with
    | fault =>
      rw [update_unroll this f2, (update_round_more_time ht).2 hr]
      rfl
    | leave => rfl
    | again next =>
      rw [update_unroll this f2, (update_round_more_time ht).1 next hr]
      simp only
      apply ih
      obtain ⟨e, -, hlt, -, -, -, -, -, -, htd, -, -⟩ := update_round_again hr
      rw [htd]
      simp only
      omega



theorem drop_of_get? {α : Type} {l : List α} {n : Nat} {e : α} (h : l.get? n = some e) :
    l.drop n = e :: l.drop (n + 1) := by
  induction l generalizing n with
  | nil => simp at h
  | cons a l ih =>
    cases n with
    | zero => simp at h; simp [h]
    | succ n =>
      rw [List.get?_cons_succ] at h
      simpa using ih h

theorem update_consumed (this this1 : TouchActualizer) (frame : Frame)
    (h : update_active_events this frame = some this1) :
    ∃ consumed rest : List JsonEvent,
      this.touch_data.json_events.drop this.touch_data.next_event.toNat = consumed ++ rest ∧
      this1.touch_data.next_event = this.touch_data.next_event + (consumed.length : Int) ∧
      this1.active_events = consumed.foldl replay_record this.active_events ∧
      (∀ e ∈ consumed, e.timestamp ≤ frame.timestamp ∧ e.index < this.touch_data.n_events ∧
        0 ≤ e.index ∧ e.index < (N_ACTIVE_EVENTS : Int)) ∧
      this1.touch_data =
        { this.touch_data with next_event := this1.touch_data.next_event } ∧
      this1.move_touch_mask = this.move_touch_mask ∧
      this1.down_touch_mask = this.down_touch_mask ∧
      this1.touch_data.next_event ≤ max this.touch_data.next_event this.touch_data.n_events := by
  generalize hm : (this.touch_data.n_events - this.touch_data.next_event).toNat = m
  induction m generalizing this with
  | zero =>
    have hr : update_round this frame = Round.leave := by
      have : ¬ this.touch_data.next_event < this.touch_data.n_events := by omega
      simp [update_round, this]
    rw [update_unroll, hr] at h
    simp only [Option.some.injEq] at h
    subst h
    exact ⟨[], _, rfl, by simp, rfl, by simp, rfl, rfl, rfl, by omega⟩
  | succ m ih =>
    rw [update_unroll] at h
    cases hr : update_round this frame with
    | fault => rw [hr] at h; cases h
    | leave =>
      rw [hr] at h
      simp only [Option.some.injEq] at h
      subst h
      exact ⟨[], _, rfl, by simp, rfl, by simp, rfl, rfl, rfl, by omega⟩
    | again next =>
      rw [hr] at h
      simp only at h
      obtain ⟨e, h0, hlt, he, hts, hidx, hi0, hi1, htab, htd, hmm, hdm⟩ := update_round_again hr
      have hm1 : (next.touch_data.n_events - next.touch_data.next_event).toNat = m := by
        rw [htd]; simp only; omega
      obtain ⟨consumed, rest, hdrop, hnext, hact, hall, htd1, hmm1, hdm1, hle⟩ := ih next h hm1
      refine ⟨e :: consumed, rest, ?_, ?_, ?_, ?_, ?_, ?_, ?_, ?_⟩
      · rw [drop_of_get? he]
        have : (this.touch_data.next_event + 1).toNat = this.touch_data.next_event.toNat + 1 := by
          omega
        rw [htd] at hdrop
        simp only [this] at hdrop
        rw [hdrop]
        rfl
      · rw [hnext, htd]
        simp only [List.length_cons]
        push_cast
        omega
      · rw [hact, htab]
        rfl
      · intro e1 he1
        rcases List.mem_cons.mp he1 with rfl | hmem
        · exact ⟨hts, hidx, hi0, hi1⟩
        · have := hall e1 hmem
          rw [htd] at this
          exact this
      · rw [htd1, htd]
      · rw [hmm1, hmm]
      · rw [hdm1, hdm]
      · rw [htd] at hle
        simp only at hle
        omega

theorem update_future_record (this : TouchActualizer) (frame : Frame) (e : JsonEvent)
    (h0 : 0 ≤ this.touch_data.next_event)
    (he : this.touch_data.json_events.get? this.touch_data.next_event.toNat = some e)
    (hts : frame.timestamp < e.timestamp) :
    update_active_events this frame = some this := by
  have hr : update_round this frame = Round.leave := by
    unfold update_round parse_next_event
    have : ¬ this.touch_data.next_event < 0 := by omega
    simp only [this, if_false, he]
    have : e.timestamp > frame.timestamp := hts
    simp [this]
  rw [update_unroll, hr]


/-! ## The paint pass as a composition of pixel operations -/

theorem foldl_closed (P : (Frame → Frame) → Prop) (hid : P (fun fr => fr))
    (hcomp : ∀ g1 g2, P g1 → P g2 → P (fun fr => g2 (g1 fr)))
    {ι : Type} (l : List ι) (body : Frame → ι → Frame)
    (hb : ∀ i, i ∈ l → P (fun fr => body fr i)) :
    P (fun fr => l.foldl body fr) := by
  induction l with
  | nil => exact hid
  | cons i l ih =>
    simp only [List.foldl_cons]
    exact hcomp (fun fr => body fr i) (fun fr => l.foldl body fr)
      (hb i (by simp)) (ih (fun j hj => hb j (by simp [hj])))

theorem forLoop_closed (P : (Frame → Frame) → Prop) (hid : P (fun fr => fr))
    (hcomp : ∀ g1 g2, P g1 → P g2 → P (fun fr => g2 (g1 fr)))
    (lo hi : Int) (body : Int → Frame → Frame)
    (hb : ∀ i, lo ≤ i → i ≤ hi → P (body i)) :
    P (forLoop lo hi body) := by
  have h := foldl_closed P hid hcomp (List.range (hi + 1 - lo).toNat)
    (fun acc (k : Nat) => body (lo + (k : Int)) acc)
    (fun k hk => hb (lo + (k : Int)) (by omega) (by
      have := List.mem_range.mp hk
      omega))
  unfold forLoop
  exact h

theorem actualizeEvent_closed (P : (Frame → Frame) → Prop) (hid : P (fun fr => fr))
    (hcomp : ∀ g1 g2, P g1 → P g2 → P (fun fr => g2 (g1 fr)))
    (inverted : Bool) (this : TouchActualizer)
    (hpix : ∀ c, P (pixel_op inverted this.touch_data.touch_color c)) (event : Event) :
    P (actualizeEvent inverted this event) := by
  unfold actualizeEvent
  generalize (if event.action = ACTION.down then this.down_touch_mask
    else this.move_touch_mask) = touch_mask
  apply forLoop_closed P hid hcomp
  intro y _ _
  apply forLoop_closed P hid hcomp
  intro x _ _
  by_cases hm : mask_cell touch_mask y x ≠ 0
  · simp only [if_pos hm]
    exact hpix _
  · simp only [if_neg hm]
    exact hid

theorem actualizeEvents_closed (P : (Frame → Frame) → Prop) (hid : P (fun fr => fr))
    (hcomp : ∀ g1 g2, P g1 → P g2 → P (fun fr => g2 (g1 fr)))
    (inverted : Bool) (this : TouchActualizer)
    (hpix : ∀ c, P (pixel_op inverted this.touch_data.touch_color c)) :
    P (actualizeEvents inverted this) := by
  unfold actualizeEvents
  apply foldl_closed P hid hcomp
  intro i _
  cases this.active_events i with
  | none => exact hid
  | some event => exact actualizeEvent_closed P hid hcomp inverted this hpix event

theorem XorOp_id : XorOp (fun fr => fr) := by
  intro l w h t
  refine ⟨fun _ => 0, fun mem => ?_⟩
  simp [byte_xor_zero]

theorem XorOp_comp (g1 g2 : Frame → Frame) (h1 : XorOp g1) (h2 : XorOp g2) :
    XorOp (fun fr => g2 (g1 fr)) := by
  intro l w h t
  obtain ⟨m1, hm1⟩ := h1 l w h t
  obtain ⟨m2, hm2⟩ := h2 l w h t
  refine ⟨fun a => m1 a ^^^ m2 a, fun mem => ?_⟩
  simp only [hm1, hm2, byte_xor_assoc]

theorem XorOp_invertPixel (c : Coordinate) : XorOp (fun fr => invertPixel fr c) := by
  intro l w h t
  by_cases hs : c.y > h ∨ c.y < 0 ∨ c.x > w ∨ c.x < 0
  · refine ⟨fun _ => 0, fun mem => ?_⟩
    simp [invertPixel, hs, byte_xor_zero]
  · refine ⟨fun a => if a = c.y * l + c.x * 4 ∨ a = c.y * l + c.x * 4 + 1 ∨
        a = c.y * l + c.x * 4 + 2 then 0xFF else 0, fun mem => ?_⟩
    simp only [invertPixel, if_neg hs, Frame.mk.injEq, and_true]
    funext a
    by_cases h0 : a = c.y * l + c.x * 4
    · subst h0; simp [poke, byte_xor_zero]
    · by_cases h1 : a = c.y * l + c.x * 4 + 1
      · subst h1; simp [poke, byte_xor_zero]
      · by_cases h2 : a = c.y * l + c.x * 4 + 2
        · subst h2; simp [poke, byte_xor_zero]
        · by_cases h3 : a = c.y * l + c.x * 4 + 3
          · subst h3; simp [poke, byte_xor_zero]
          · simp [poke, h0, h1, h2, h3, byte_xor_zero]

theorem XorOp_twice (g : Frame → Frame) (hg : XorOp g) (frame : Frame) :
    g (g frame) = frame := by
  obtain ⟨mem, l, w, h, t⟩ := frame
  obtain ⟨m, hm⟩ := hg l w h t
  rw [hm, hm]
  simp only [byte_xor_cancel]

/-! ## Colorize mode -/

theorem actualizeEvents_invert_twice (this : TouchActualizer) (frame : Frame) :
    actualizeEvents true this (actualizeEvents true this frame) = frame := by
  apply XorOp_twice
  apply actualizeEvents_closed XorOp XorOp_id XorOp_comp
  intro c
  exact XorOp_invertPixel c

/-! ## Scenario evaluations -/

theorem scenario_update :
    update_active_events (TouchActualizer_new scenario_timeline green 64 64) (blank64 0)
      = some scenario_state := by
  rfl

theorem scenario_actualize (inverted : Bool) :
    actualize inverted (TouchActualizer_new scenario_timeline green 64 64) (blank64 0)
      = some (scenario_state, actualizeEvents inverted scenario_state (blank64 0)) := by
  rfl

theorem two_step_update :
    update_active_events (TouchActualizer_new two_step_timeline green 64 64) (blank64 10)
      = some two_step_state := by
  rfl

/-! ## The claims -/

/-- Claim C1. In Invert mode, for every frame, every table and both masks,
the paint pass followed by `revert_actualize` on the same actualizer gives
back the frame it started from, byte for byte; the same holds for a whole
`actualize` call (replay, then paint) followed by `revert_actualize`. -/
theorem invert_round_trip (this : TouchActualizer) (frame : Frame) :
    revert_actualize true this (actualizeEvents true this frame) = frame ∧
    (∀ this1 frame1, actualize true this frame = some (this1, frame1) →
      revert_actualize true this1 frame1 = frame) := by
  refine ⟨actualizeEvents_invert_twice this frame, ?_⟩
  intro this1 frame1 h
  unfold actualize at h
  cases hu : update_active_events this frame with
  | none => rw [hu] at h; cases h
  | some t =>
    rw [hu] at h
    simp only [Option.some.injEq, Prod.mk.injEq] at h
    obtain ⟨h1, h2⟩ := h
    subst h1 h2
    exact actualizeEvents_invert_twice t frame

set_option maxRecDepth 1000000 in
/-- Scenario A: one Down touch at (10,10), Down radius 4, 64x64 frame.  The
paint pass inverts the centre pixel and `revert_actualize` restores the frame. -/
theorem invert_round_trip_witness :
    actualize true (TouchActualizer_new scenario_timeline green 64 64) (blank64 0)
      = some (scenario_state, actualizeEvents true scenario_state (blank64 0)) ∧
    scenario_state.down_touch_mask.radius = 4 ∧
    (actualizeEvents true scenario_state (blank64 0)).image_data (10 * 256 + 10 * 4) = 255 ∧
    revert_actualize true scenario_state (actualizeEvents true scenario_state (blank64 0))
      = blank64 0 :=
  ⟨scenario_actualize true, by decide, by decide,
    (invert_round_trip (TouchActualizer_new scenario_timeline green 64 64) (blank64 0)).2
      _ _ (scenario_actualize true)⟩

/-- Claim C2. From the initial state, replaying up to `t1` and then up to
`t2 > t1` gives the same result (table, cursor and the rest of the state, or
the same fault) as replaying up to `t2` at once. -/
theorem monotonic_replay (json_events : List JsonEvent) (touch_color : RGBA_color)
    (width higth : Int) (f1 f2 : Frame) (h : f1.timestamp < f2.timestamp) :
    (update_active_events (TouchActualizer_new json_events touch_color width higth) f1).bind
        (fun t => update_active_events t f2)
      = update_active_events (TouchActualizer_new json_events touch_color width higth) f2 :=
  update_replay_twice _ f1 f2 (Int.le_of_lt h)

/-- A Down at time 0 and a Move at time 50 on slot 0, replayed to 10 and then
to 60, or to 60 at once: both end with the Move in slot 0 and the cursor at 2. -/
theorem monotonic_replay_witness :
    (blank64 10).timestamp < (blank64 60).timestamp ∧
    (update_active_events (TouchActualizer_new two_step_timeline green 64 64) (blank64 10)).bind
        (fun t => update_active_events t (blank64 60))
      = update_active_events (TouchActualizer_new two_step_timeline green 64 64) (blank64 60) ∧
    (update_active_events (TouchActualizer_new two_step_timeline green 64 64) (blank64 60)).map
        (fun t => (t.touch_data.next_event, t.active_events 0))
      = some (2, some ⟨ACTION.move, ⟨12, 12⟩⟩) :=
  ⟨by decide,
    monotonic_replay two_step_timeline green 64 64 (blank64 10) (blank64 60) (by decide),
    by decide⟩

/-- Claim C3. The records consumed by one `update_active_events` call are a
block of the timeline starting at the cursor; the cursor advances by the
length of that block, the table is the replay of exactly that block, and
every record in it has a timestamp not after the frame timestamp.  If the
record at the cursor has a later timestamp, the call returns the state as it
was. -/
theorem future_events_excluded (this : TouchActualizer) (frame : Frame) :
    (∀ this1, update_active_events this frame = some this1 →
      ∃ consumed rest : List JsonEvent,
        this.touch_data.json_events.drop this.touch_data.next_event.toNat
          = consumed ++ rest ∧
        this1.touch_data.next_event
          = this.touch_data.next_event + (consumed.length : Int) ∧
        this1.active_events = consumed.foldl replay_record this.active_events ∧
        ∀ e ∈ consumed, e.timestamp ≤ frame.timestamp) ∧
    (∀ e, 0 ≤ this.touch_data.next_event →
      this.touch_data.json_events.get? this.touch_data.next_event.toNat = some e →
      frame.timestamp < e.timestamp →
      update_active_events this frame = some this) := by
  constructor
  · intro this1 h
    obtain ⟨consumed, rest, h1, h2, h3, h4, -⟩ := update_consumed this this1 frame h
    exact ⟨consumed, rest, h1, h2, h3, fun e he => (h4 e he).1⟩
  · intro e h0 he hts
    exact update_future_record this frame e h0 he hts

/-- With a Down at time 0 and a Move at time 50, a call at time 10 consumes a
block of records that are all due, and a second call at time 10, with the
cursor on the Move, changes nothing. -/
theorem future_events_excluded_witness :
    (∃ consumed rest : List JsonEvent,
      (TouchActualizer_new two_step_timeline green 64 64).touch_data.json_events.drop
          (TouchActualizer_new two_step_timeline green 64 64).touch_data.next_event.toNat
        = consumed ++ rest ∧
      two_step_state.touch_data.next_event
        = (TouchActualizer_new two_step_timeline green 64 64).touch_data.next_event
          + (consumed.length : Int) ∧
      two_step_state.active_events
        = consumed.foldl replay_record
            (TouchActualizer_new two_step_timeline green 64 64).active_events ∧
      ∀ e ∈ consumed, e.timestamp ≤ (blank64 10).timestamp) ∧
    update_active_events two_step_state (blank64 10) = some two_step_state :=
  ⟨(future_events_excluded (TouchActualizer_new two_step_timeline green 64 64)
      (blank64 10)).1 two_step_state two_step_update,
    (future_events_excluded two_step_state (blank64 10)).2 (move_later 0 12 12)
      (by decide) rfl (by decide)⟩

/-- Claim C4, evaluated on the code.  The guard compares the record's index
with `n_events`, not with `N_ACTIVE_EVENTS`, and has no lower bound: a record
with index -1, and a record with index 15 in a timeline of 16 records, pass
the guard and reach `active_events[index]` outside the table.  Only when
`n_events <= 15` is the record with index 15 stopped at. -/
theorem index_guard_lets_bad_index_through :
    update_round (TouchActualizer_new [down_at (-1) 10 10] green 64 64) (blank64 0)
      = Round.fault ∧
    (update_active_events (TouchActualizer_new [down_at (-1) 10 10] green 64 64)
      (blank64 0)).isNone = true ∧
    (update_active_events
      (TouchActualizer_new (down_at 15 10 10 :: List.replicate 15 (down_at 0 10 10))
        green 64 64) (blank64 0)).isNone = true ∧
    (update_active_events (TouchActualizer_new [down_at 15 10 10] green 64 64)
      (blank64 0)).map (fun t => (t.touch_data.next_event, slots t.active_events))
      = some (0, [none, none, none, none, none, none, none, none, none, none]) := by
  refine ⟨rfl, by decide, by decide, by decide⟩

/-- Claim C5, evaluated on the code.  In the two-record timeline `n_events`
is 2, so the guard `index >= n_events` rejects slot 2: neither Down is
consumed and slot 2 stays empty.  With a third record in the timeline the same
two records are consumed and slot 2 holds the second Down only. -/
theorem repeated_down_on_slot_two_rejected :
    (update_active_events
        (TouchActualizer_new [down_at 2 10 10, down_at 2 20 20] green 64 64)
        (blank64 0)).map (fun t => (t.touch_data.next_event, slots t.active_events))
      = some (0, [none, none, none, none, none, none, none, none, none, none]) ∧
    (update_active_events
        (TouchActualizer_new [down_at 2 10 10, down_at 2 20 20, move_later 0 5 5] green 64 64)
        (blank64 0)).map (fun t => (t.touch_data.next_event, slots t.active_events))
      = some (2, [none, none, some ⟨ACTION.down, ⟨20, 20⟩⟩, none, none, none, none, none,
          none, none]) := by
  refine ⟨by decide, by decide⟩

set_option maxRecDepth 1000000 in
/-- Claim C6, evaluated on the code.  The clipping test is `>` against
`width` and `higth`, so the coordinates (64,0) and (0,64) of a 64x64 frame are
not skipped: `invertPixel` and `colorizePixel` store one pixel past the last
column and one row past the last row.  Through the paint pass, a Down touch at
(60,10) with radius 4 inverts the pixel at column 64 of row 9. -/
theorem pixel_written_past_last_column_and_row :
    (invertPixel (blank64 0) ⟨64, 0⟩).image_data (0 * 256 + 64 * 4) = 255 ∧
    (invertPixel (blank64 0) ⟨0, 64⟩).image_data (64 * 256 + 0 * 4) = 255 ∧
    (colorizePixel (blank64 0) ⟨64, 0⟩ green).image_data (0 * 256 + 64 * 4 + 1) = 255 ∧
    (colorizePixel (blank64 0) ⟨0, 64⟩ green).image_data (64 * 256 + 0 * 4 + 1) = 255 ∧
    (blank64 0).image_data (0 * 256 + 64 * 4) = 0 ∧
    (blank64 0).image_data (64 * 256 + 0 * 4) = 0 ∧
    (blank64 0).image_data (0 * 256 + 64 * 4 + 1) = 0 ∧
    (blank64 0).image_data (64 * 256 + 0 * 4 + 1) = 0 ∧
    (actualize true (TouchActualizer_new [down_at 0 60 10] green 64 64) (blank64 0)).map
        (fun r => r.2.image_data (9 * 256 + 64 * 4)) = some 255 := by
  decide

set_option maxRecDepth 1000000 in
/-- Claim C7, evaluated on the code.  Rows are stored `2*radius` cells apart,
so the last cell of a row is the first cell of the next row and is
overwritten by it.  For radius 1 the cell (dx,dy) = (1,0), at distance exactly
1, reads as not set, and the cell (1,-1), with dx*dx+dy*dy = 2, reads as set;
the same happens for the radius-4 Down stencil of a 64x64 frame. -/
theorem stencil_misses_axis_cell :
    mask_cell (TouchMask_new 1) (0 + 1) (1 + 1) = 0 ∧
    mask_cell (TouchMask_new 1) (-1 + 1) (1 + 1) = 255 ∧
    (TouchMask_new 1).mask = [0, 255, 255, 255, 0, 255, 0, 0, 0] ∧
    mask_cell (TouchMask_new 4) (0 + 4) (4 + 4) = 0 ∧
    mask_cell (TouchMask_new 4) (-1 + 4) (4 + 4) = 255 := by
  decide

/-- Claim C8. For a coordinate that `invertPixel` does not skip, each of the
bytes R, G, B of the pixel becomes `b XOR 0xFF`, which is `255 - b`; the alpha
byte, every byte outside the four bytes of the pixel, and the geometry of the
frame stay as they were. -/
theorem invertPixel_spec (this : Frame) (coord : Coordinate)
    (h : ¬ (coord.y > this.higth ∨ coord.y < 0 ∨ coord.x > this.width ∨ coord.x < 0)) :
    (∀ k : Int, 0 ≤ k → k < 3 →
      (invertPixel this coord).image_data (coord.y * this.linesize + coord.x * 4 + k)
          = this.image_data (coord.y * this.linesize + coord.x * 4 + k) ^^^ 0xFF ∧
      ((invertPixel this coord).image_data (coord.y * this.linesize + coord.x * 4 + k)).val
          = 255 - (this.image_data (coord.y * this.linesize + coord.x * 4 + k)).val) ∧
    (invertPixel this coord).image_data (coord.y * this.linesize + coord.x * 4 + 3)
        = this.image_data (coord.y * this.linesize + coord.x * 4 + 3) ∧
    (∀ a : Int, (a < coord.y * this.linesize + coord.x * 4 ∨
        coord.y * this.linesize + coord.x * 4 + 3 < a) →
      (invertPixel this coord).image_data a = this.image_data a) ∧
    (invertPixel this coord).linesize = this.linesize ∧
    (invertPixel this coord).width = this.width ∧
    (invertPixel this coord).higth = this.higth ∧
    (invertPixel this coord).timestamp = this.timestamp := by
  have hx := byte_xor_ff_val
  have h0 := byte_xor_zero
  simp only [invertPixel, if_neg h]
  refine ⟨?_, ?_, ?_, ?_⟩
  · intro k hk0 hk3
    have hk : k = 0 ∨ k = 1 ∨ k = 2 := by omega
    rcases hk with rfl | rfl | rfl <;> simp [poke, hx, h0]
  · simp [poke, h0]
  · intro a ha
    have h1 : a ≠ coord.y * this.linesize + coord.x * 4 := by omega
    have h2 : a ≠ coord.y * this.linesize + coord.x * 4 + 1 := by omega
    have h3 : a ≠ coord.y * this.linesize + coord.x * 4 + 2 := by omega
    have h4 : a ≠ coord.y * this.linesize + coord.x * 4 + 3 := by omega
    simp [poke, h1, h2, h3, h4]
  · simp

/-- The pixel (10,10) of the blank 64x64 frame: the green byte becomes 255
and the alpha byte stays 0. -/
theorem invertPixel_spec_witness :
    ¬ ((10 : Int) > (blank64 0).higth ∨ (10 : Int) < 0 ∨ (10 : Int) > (blank64 0).width ∨
        (10 : Int) < 0) ∧
    ((invertPixel (blank64 0) ⟨10, 10⟩).image_data (10 * 256 + 10 * 4 + 1)).val = 255 - 0 ∧
    (invertPixel (blank64 0) ⟨10, 10⟩).image_data (10 * 256 + 10 * 4 + 3) = 0 :=
  ⟨by decide,
    ((invertPixel_spec (blank64 0) ⟨10, 10⟩ (by decide)).1 1 (by decide) (by decide)).2,
    (invertPixel_spec (blank64 0) ⟨10, 10⟩ (by decide)).2.1⟩

/-- Claim C10. For an action string (a C string: no NUL among its
characters), `parse_action` gives Move exactly for "move", Down exactly for
"down", "5", "7" and "9", and Up for every other string, among them "up", "6",
"8", "10", the empty string and tokens such as "Move", "mov" and "11". -/
theorem parse_action_cases (s : String) (hs : ∀ c ∈ s.data, c ≠ NUL) :
    (parse_action s = ACTION.move ↔ s = "move") ∧
    (parse_action s = ACTION.down ↔ (s = "down" ∨ s = "5" ∨ s = "7" ∨ s = "9")) ∧
    (parse_action s = ACTION.up ↔
      ¬ (s = "move" ∨ s = "down" ∨ s = "5" ∨ s = "7" ∨ s = "9")) ∧
    parse_action "up" = ACTION.up ∧ parse_action "6" = ACTION.up ∧
    parse_action "8" = ACTION.up ∧ parse_action "10" = ACTION.up ∧
    parse_action "" = ACTION.up ∧ parse_action "Move" = ACTION.up ∧
    parse_action "mov" = ACTION.up ∧ parse_action "11" = ACTION.up := by
  have hm := strncmp_literal s "move" hs (by decide) (by decide)
  have hd := strncmp_literal s "down" hs (by decide) (by decide)
  have h5 := strncmp_literal s "5" hs (by decide) (by decide)
  have h7 := strncmp_literal s "7" hs (by decide) (by decide)
  have h9 := strncmp_literal s "9" hs (by decide) (by decide)
  refine ⟨?_, ?_, ?_, by decide, by decide, by decide, by decide, by decide, by decide,
    by decide, by decide⟩
  all_goals
    unfold parse_action
    simp only [hm, hd, h5, h7, h9]
    by_cases h1 : s = "move"
    · subst h1; simp
    · by_cases h2 : s = "down" ∨ s = "5" ∨ s = "7" ∨ s = "9"
      · simp [h1, h2]
      · simp [h1, h2]

/-- The string "down" has no NUL and parses to Down; "9" parses to Down too. -/
theorem parse_action_cases_witness :
    (∀ c ∈ "down".data, c ≠ NUL) ∧ parse_action "down" = ACTION.down ∧
    parse_action "9" = ACTION.down :=
  ⟨by decide, (parse_action_cases "down" (by decide)).2.1.mpr (Or.inl rfl),
    (parse_action_cases "9" (by decide)).2.1.mpr (Or.inr (Or.inr (Or.inr rfl)))⟩

/-! ## Table updates and sequences of calls -/

/-- Claim C11. The Up branch on an empty slot leaves the whole table as it
was; on an occupied slot it empties that slot and leaves every other slot as it
was.  The same holds for replaying an accepted Up record of the timeline. -/
theorem up_clears_slot (active_events : Fin N_ACTIVE_EVENTS → Option Event)
    (index : Fin N_ACTIVE_EVENTS) (x y : Int) :
    (active_events index = none →
      apply_record active_events index ACTION.up x y = active_events) ∧
    (apply_record active_events index ACTION.up x y) index = none ∧
    (∀ j, j ≠ index → (apply_record active_events index ACTION.up x y) j = active_events j) ∧
    (∀ e : JsonEvent, parse_action e.action = ACTION.up →
      e.index = (index.val : Int) →
      replay_record active_events e = apply_record active_events index ACTION.up x y) := by
  refine ⟨?_, ?_, ?_, ?_⟩
  · intro h
    funext j
    by_cases hj : j = index
    · subst hj; simp [apply_record, h]
    · simp [apply_record, Function.update_noteq hj]
  · simp [apply_record]
  · intro j hj
    simp [apply_record, Function.update_noteq hj]
  · intro e ha hi
    have hin : 0 ≤ e.index ∧ e.index < (N_ACTIVE_EVENTS : Int) := by
      have := index.isLt
      omega
    unfold replay_record
    rw [dif_pos hin, ha]
    have : (⟨e.index.toNat, by omega⟩ : Fin N_ACTIVE_EVENTS) = index := by
      apply Fin.ext
      simp only
      omega
    rw [this]
    simp [apply_record]

/-- An "up" record on the empty slot 3 of the initial table changes nothing,
and on the occupied slot 0 of the scenario table it leaves every slot empty. -/
theorem up_clears_slot_witness :
    apply_record (fun _ => none) 3 ACTION.up 7 7 = (fun _ => none) ∧
    slots (apply_record scenario_state.active_events 0 ACTION.up 7 7)
      = [none, none, none, none, none, none, none, none, none, none] ∧
    scenario_state.active_events 0 = some ⟨ACTION.down, ⟨10, 10⟩⟩ ∧
    replay_record (fun _ => none) ⟨"up", 3, 0, 7, 7⟩ = apply_record (fun _ => none) 3 ACTION.up 7 7 :=
  ⟨(up_clears_slot (fun _ => none) 3 7 7).1 rfl, by decide, by decide,
    (up_clears_slot (fun _ => none) 3 7 7).2.2.2 ⟨"up", 3, 0, 7, 7⟩ (by decide) (by decide)⟩

theorem update_round_fault {this : TouchActualizer} {frame : Frame}
    (h : update_round this frame = Round.fault) :
    this.touch_data.next_event < 0 ∨
    this.touch_data.json_events.get? this.touch_data.next_event.toNat = none ∨
    ∃ e, this.touch_data.json_events.get? this.touch_data.next_event.toNat = some e ∧
      ¬ (0 ≤ e.index ∧ e.index < (N_ACTIVE_EVENTS : Int)) := by
  unfold update_round parse_next_event at h
  simp only at h
  split at h
  · split at h
    · rename_i hp
      split at hp
      · left; assumption
      · split at hp
        · right; left; assumption
        · cases hp
    · rename_i index action timestamp x y hp
      split at hp
      · cases hp
      · split at hp
        · cases hp
        · rename_i e he
          simp only [Option.some.injEq, Prod.mk.injEq] at hp
          obtain ⟨h1, h2, h3, h4, h5⟩ := hp
          subst h1 h2 h3 h4 h5
          split at h
          · cases h
          · split at h
            · cases h
            · split at h
              · cases h
              · rename_i hin
                right; right
                exact ⟨e, he, hin⟩
  · cases h

theorem update_returns (this : TouchActualizer) (frame : Frame)
    (h0 : 0 ≤ this.touch_data.next_event)
    (hlen : (this.touch_data.json_events.length : Int) = this.touch_data.n_events)
    (hidx : ∀ e ∈ this.touch_data.json_events, 0 ≤ e.index ∧ e.index < (N_ACTIVE_EVENTS : Int)) :
    ∃ this1, update_active_events this frame = some this1 := by
  generalize hm : (this.touch_data.n_events - this.touch_data.next_event).toNat = m
  induction m generalizing this with
  | zero =>
    have hr : update_round this frame = Round.leave := by
      have : ¬ this.touch_data.next_event < this.touch_data.n_events := by omega
      simp [update_round, this]
    rw [update_unroll, hr]
    exact ⟨this, rfl⟩
  | succ m ih =>
    rw [update_unroll]
    cases hr : update_round this frame with
    | fault =>
      exfalso
      rcases update_round_fault hr with h | h | ⟨e, he, hne⟩
      · omega
      · rw [List.get?_eq_none] at h
        omega
      · exact hne (hidx e (List.get?_mem he))
    | leave => exact ⟨this, rfl⟩
    | again next =>
      obtain ⟨e, -, hlt, -, -, -, -, -, -, htd, -, -⟩ := update_round_again hr
      simp only
      apply ih next
      · rw [htd]; simp only; omega
      · rw [htd]; exact hlen
      · rw [htd]; exact hidx
      · rw [htd]; simp only; omega

/-- Facts about the cursor for a state with `0 <= next_event <= n_events`:
more fuel than `n_events - next_event` gives the same result; a call that
returns a state leaves the cursor in `[next_event, n_events]` and `n_events` as
it was; the call returns a state whenever the timeline has `n_events` records,
all with an index inside the table; and `actualize` hands back exactly the
state of `update_active_events`, the paint pass and `revert_actualize` produce
a frame only. -/
theorem cursor_only_advances (this : TouchActualizer) (frame : Frame)
    (h0 : 0 ≤ this.touch_data.next_event)
    (h1 : this.touch_data.next_event ≤ this.touch_data.n_events) :
    (∀ fuel, (this.touch_data.n_events - this.touch_data.next_event).toNat ≤ fuel →
      update_active_events_loop fuel this frame = update_active_events this frame) ∧
    (∀ this1, update_active_events this frame = some this1 →
      this.touch_data.next_event ≤ this1.touch_data.next_event ∧
      this1.touch_data.next_event ≤ this1.touch_data.n_events ∧
      this1.touch_data.n_events = this.touch_data.n_events) ∧
    ((this.touch_data.json_events.length : Int) = this.touch_data.n_events →
      (∀ e ∈ this.touch_data.json_events, 0 ≤ e.index ∧ e.index < (N_ACTIVE_EVENTS : Int)) →
      ∃ this1, update_active_events this frame = some this1) ∧
    (∀ inverted this1 frame1, actualize inverted this frame = some (this1, frame1) →
      update_active_events this frame = some this1 ∧
      frame1 = actualizeEvents inverted this1 frame) := by
  refine ⟨fun fuel hf => update_loop_fuel fuel this frame hf, ?_, ?_, ?_⟩
  · intro this1 h
    obtain ⟨consumed, rest, -, hnext, -, -, htd, -, -, hle⟩ := update_consumed this this1 frame h
    have hn : this1.touch_data.n_events = this.touch_data.n_events := by rw [htd]
    refine ⟨by omega, ?_, hn⟩
    rw [hn]
    omega
  · intro hlen hidx
    exact update_returns this frame h0 hlen hidx
  · intro inverted this1 frame1 h
    unfold actualize at h
    cases hu : update_active_events this frame with
    | none => rw [hu] at h; cases h
    | some t =>
      rw [hu] at h
      simp only [Option.some.injEq, Prod.mk.injEq] at h
      obtain ⟨h2, h3⟩ := h
      subst h2
      exact ⟨rfl, h3.symm⟩

/-- From the initial state of the two-record timeline a call at time 10
returns, with the cursor moved from 0 to 1, inside `[0, 2]`. -/
theorem cursor_only_advances_witness :
    0 ≤ (TouchActualizer_new two_step_timeline green 64 64).touch_data.next_event ∧
    (TouchActualizer_new two_step_timeline green 64 64).touch_data.next_event
      ≤ (TouchActualizer_new two_step_timeline green 64 64).touch_data.n_events ∧
    (∃ this1, update_active_events (TouchActualizer_new two_step_timeline green 64 64)
      (blank64 10) = some this1) ∧
    (TouchActualizer_new two_step_timeline green 64 64).touch_data.next_event
      ≤ two_step_state.touch_data.next_event ∧
    two_step_state.touch_data.next_event ≤ two_step_state.touch_data.n_events :=
  have h := cursor_only_advances (TouchActualizer_new two_step_timeline green 64 64)
    (blank64 10) (by decide) (by decide)
  ⟨by decide, by decide, h.2.2.1 (by decide) (by decide),
    (h.2.1 two_step_state two_step_update).1, (h.2.1 two_step_state two_step_update).2.1⟩

/-- The loop leaves within `n_events - next_event + 1` evaluations of its
test, whatever the state: by then it has either left with the state that
`update_active_events` returns or stopped at the access that
`update_active_events` reports as `none`. -/
theorem update_loop_leaves (this : TouchActualizer) (frame : Frame) :
    update_loop_result
        ((this.touch_data.n_events - this.touch_data.next_event).toNat + 1) this frame
      = match update_active_events this frame with
        | some this1 => LoopResult.done this1
        | none => LoopResult.fault := by
  generalize hm : (this.touch_data.n_events - this.touch_data.next_event).toNat = m
  induction m generalizing this with
  | zero =>
    have hr : update_round this frame = Round.leave := by
      have : ¬ this.touch_data.next_event < this.touch_data.n_events := by omega
      simp [update_round, this]
    rw [update_unroll, hr]
    simp only [update_loop_result, hr]
  | succ m ih =>
    rw [update_unroll]
    cases hr : update_round this frame with
    | fault => simp only [update_loop_result, hr]
    | leave => simp only [update_loop_result, hr]
    | again next =>
      obtain ⟨e, -, hlt, -, -, -, -, -, -, htd, -, -⟩ := update_round_again hr
      have hm1 : (next.touch_data.n_events - next.touch_data.next_event).toNat = m := by
        rw [htd]; simp only; omega
      have := ih next hm1
      simp only [update_loop_result, hr]
      exact this

/-- Claim C13, evaluated on the code.  The initial state of the one-record
timeline `[{down, index -1, t 0}]` has `0 <= next_event <= n_events`.  At frame
time 0 the record is due, the guard `index >= n_events` lets -1 through, and
the body reads `active_events[-1]`, outside the table: the first round of the
loop stops there, and the call leaves no state and no cursor. -/
theorem cursor_lost_at_out_of_table_index :
    0 ≤ (TouchActualizer_new [down_at (-1) 10 10] green 64 64).touch_data.next_event ∧
    (TouchActualizer_new [down_at (-1) 10 10] green 64 64).touch_data.next_event
      ≤ (TouchActualizer_new [down_at (-1) 10 10] green 64 64).touch_data.n_events ∧
    parse_next_event (TouchActualizer_new [down_at (-1) 10 10] green 64 64).touch_data
      = some (-1, ACTION.down, 0, 10, 10) ∧
    ¬ ((-1 : Int) ≥ (TouchActualizer_new [down_at (-1) 10 10] green 64 64).touch_data.n_events) ∧
    update_round (TouchActualizer_new [down_at (-1) 10 10] green 64 64) (blank64 0)
      = Round.fault ∧
    update_loop_result 1 (TouchActualizer_new [down_at (-1) 10 10] green 64 64) (blank64 0)
      = LoopResult.fault ∧
    (update_active_events (TouchActualizer_new [down_at (-1) 10 10] green 64 64)
      (blank64 0)).isNone = true ∧
    ¬ ∃ this1, update_active_events (TouchActualizer_new [down_at (-1) 10 10] green 64 64)
      (blank64 0) = some this1 := by
  have hn : update_active_events (TouchActualizer_new [down_at (-1) 10 10] green 64 64)
      (blank64 0) = none := rfl
  refine ⟨by decide, by decide, by decide, by decide, rfl, rfl, by decide, ?_⟩
  rintro ⟨this1, h⟩
  rw [hn] at h
  cases h

theorem update_many_stuck (this : TouchActualizer)
    (h : ∀ frame, update_active_events this frame = some this) (frames : List Frame) :
    update_many this frames = some this := by
  induction frames with
  | nil => rfl
  | cons f fs ih =>
    simp only [update_many, h f, Option.some_bind]
    exact ih

/-- Claim C15. If the record at the cursor is due and the bounds check
`index >= n_events` rejects it, the call returns the state as it was, and so
does every later call, whatever the frame timestamps: the cursor stays on the
rejected record and the table is never changed again. -/
theorem rejected_record_blocks_replay (this : TouchActualizer) (frame : Frame) (e : JsonEvent)
    (h0 : 0 ≤ this.touch_data.next_event)
    (he : this.touch_data.json_events.get? this.touch_data.next_event.toNat = some e)
    (hts : e.timestamp ≤ frame.timestamp)
    (hidx : e.index ≥ this.touch_data.n_events) :
    update_round this frame = Round.leave ∧
    update_active_events this frame = some this ∧
    ∀ later : List Frame, update_many this (frame :: later) = some this := by
  have hr : ∀ f, update_round this f = Round.leave := by
    intro f
    unfold update_round parse_next_event
    have hn : ¬ this.touch_data.next_event < 0 := by omega
    simp only [hn, if_false, he]
    split
    · split
      · rfl
      · simp [hidx]
    · rfl
  have hu : ∀ f, update_active_events this f = some this := by
    intro f
    rw [update_unroll, hr f]
  have _ := hts
  exact ⟨hr frame, hu frame, fun later => update_many_stuck this hu (frame :: later)⟩

/-- The two Downs on slot 2 of a two-record timeline: the first is rejected at
time 0, and calls at times 0, 50 and 1000 leave the initial state in place. -/
theorem rejected_record_blocks_replay_witness :
    update_many (TouchActualizer_new [down_at 2 10 10, down_at 2 20 20] green 64 64)
        [blank64 0, blank64 50, blank64 1000]
      = some (TouchActualizer_new [down_at 2 10 10, down_at 2 20 20] green 64 64) :=
  (rejected_record_blocks_replay
    (TouchActualizer_new [down_at 2 10 10, down_at 2 20 20] green 64 64) (blank64 0)
    (down_at 2 10 10) (by decide) rfl (by decide) (by decide)).2.2 [blank64 50, blank64 1000]

/-- Claim C16. For frame sizes that are not negative, `TouchActualizer_new`
builds the Move stencil with radius `min(width, higth) / 25` and the Down
stencil with radius `min(width, higth) / 15`, the Down radius is at least the
Move radius, and a 64x64 frame gives the radii 4 and 2. -/
theorem touch_radii (json_events : List JsonEvent) (touch_color : RGBA_color)
    (width higth : Int) (hw : 0 ≤ width) (hh : 0 ≤ higth) :
    (TouchActualizer_new json_events touch_color width higth).move_touch_mask
      = TouchMask_new (min width higth / R_MOVE_TOUCH_RADIUS) ∧
    (TouchActualizer_new json_events touch_color width higth).down_touch_mask
      = TouchMask_new (min width higth / R_DOWN_TOUCH_RADIUS) ∧
    (TouchActualizer_new json_events touch_color width higth).move_touch_mask.radius
      = min width higth / 25 ∧
    (TouchActualizer_new json_events touch_color width higth).down_touch_mask.radius
      = min width higth / 15 ∧
    (TouchActualizer_new json_events touch_color width higth).move_touch_mask.radius
      ≤ (TouchActualizer_new json_events touch_color width higth).down_touch_mask.radius ∧
    (TouchActualizer_new json_events touch_color 64 64).down_touch_mask.radius = 4 ∧
    (TouchActualizer_new json_events touch_color 64 64).move_touch_mask.radius = 2 := by
  have hmin : (if width < higth then width else higth) = min width higth := by
    split <;> omega
  have hm0 : 0 ≤ min width higth := by omega
  have e25 : Int.tdiv (min width higth) 25 = min width higth / 25 :=
    Int.tdiv_eq_ediv hm0 (by decide)
  have e15 : Int.tdiv (min width higth) 15 = min width higth / 15 :=
    Int.tdiv_eq_ediv hm0 (by decide)
  have hrad : ∀ r : Int, (TouchMask_new r).radius = r := fun _ => rfl
  simp only [TouchActualizer_new, hmin, R_MOVE_TOUCH_RADIUS, R_DOWN_TOUCH_RADIUS, e25, e15,
    hrad]
  refine ⟨trivial, trivial, trivial, trivial, ?_, by decide, by decide⟩
  omega

/-- A 1080x1920 frame: the Move radius is 43 and the Down radius is 72. -/
theorem touch_radii_witness :
    (0 : Int) ≤ 1080 ∧ (0 : Int) ≤ 1920 ∧
    (TouchActualizer_new [] green 1080 1920).move_touch_mask.radius = min 1080 1920 / 25 ∧
    (TouchActualizer_new [] green 1080 1920).down_touch_mask.radius = min 1080 1920 / 15 ∧
    min (1080 : Int) 1920 / 25 = 43 ∧ min (1080 : Int) 1920 / 15 = 72 :=
  have h := touch_radii [] green 1080 1920 (by decide) (by decide)
  ⟨by decide, by decide, h.2.2.1, h.2.2.2.1, by decide, by decide⟩

theorem apply_record_other (active_events : Fin N_ACTIVE_EVENTS → Option Event)
    (index j : Fin N_ACTIVE_EVENTS) (action : ACTION) (x y : Int) (hj : j ≠ index) :
    apply_record active_events index action x y j = active_events j := by
  unfold apply_record
  by_cases hup : action = ACTION.up
  · rw [if_pos hup]
    exact Function.update_noteq hj _ _
  · rw [if_neg hup]
    cases active_events index with
    | none => exact Function.update_noteq hj _ _
    | some ev => exact Function.update_noteq hj _ _

theorem apply_record_same (active_events : Fin N_ACTIVE_EVENTS → Option Event)
    (index : Fin N_ACTIVE_EVENTS) (action : ACTION) (x y : Int) :
    apply_record active_events index action x y index
      = if action = ACTION.up then none else some ⟨action, ⟨x, y⟩⟩ := by
  unfold apply_record
  by_cases hup : action = ACTION.up
  · rw [if_pos hup, if_pos hup]
    exact Function.update_same _ _ _
  · rw [if_neg hup, if_neg hup]
    cases active_events index with
    | none => exact Function.update_same _ _ _
    | some ev => exact Function.update_same _ _ _

theorem replay_record_slot (active_events : Fin N_ACTIVE_EVENTS → Option Event)
    (e : JsonEvent) (i : Fin N_ACTIVE_EVENTS) :
    replay_record active_events e i
      = if e.index = (i.val : Int) then slot_after e else active_events i := by
  unfold replay_record
  by_cases hin : 0 ≤ e.index ∧ e.index < (N_ACTIVE_EVENTS : Int)
  · rw [dif_pos hin]
    by_cases hi : e.index = (i.val : Int)
    · have hfin : (⟨e.index.toNat, by omega⟩ : Fin N_ACTIVE_EVENTS) = i := by
        apply Fin.ext
        simp only
        omega
      rw [hfin, if_pos hi, apply_record_same]
      rfl
    · have hfin : i ≠ (⟨e.index.toNat, by omega⟩ : Fin N_ACTIVE_EVENTS) := by
        intro h
        apply hi
        have := congrArg Fin.val h
        simp only at this
        omega
      rw [if_neg hi]
      exact apply_record_other _ _ _ _ _ _ hfin
  · rw [dif_neg hin]
    have hi : e.index ≠ (i.val : Int) := by
      have := i.isLt
      omega
    rw [if_neg hi]

theorem replay_fold_slot (l : List JsonEvent)
    (active_events : Fin N_ACTIVE_EVENTS → Option Event) (i : Fin N_ACTIVE_EVENTS) :
    (l.foldl replay_record active_events) i
      = match last_record (i.val : Int) l with
        | none => active_events i
        | some e => slot_after e := by
  induction l using List.reverseRecOn with
  | nil => rfl
  | append_singleton l e ih =>
    rw [List.foldl_append]
    simp only [List.foldl_cons, List.foldl_nil]
    rw [replay_record_slot]
    unfold last_record at ih ⊢
    rw [List.filter_append, List.getLast?_append]
    by_cases hi : e.index = (i.val : Int)
    · simp [hi]
    · simp only [hi, if_false]
      rw [ih]
      simp [List.filter, hi]

theorem update_tracks (this this1 : TouchActualizer) (frame : Frame)
    (hinv : TableTracksCursor this) (h : update_active_events this frame = some this1) :
    TableTracksCursor this1 ∧
    this1.touch_data.json_events = this.touch_data.json_events := by
  obtain ⟨h0, htab⟩ := hinv
  obtain ⟨consumed, rest, hdrop, hnext, hact, -, htd, -, -, -⟩ :=
    update_consumed this this1 frame h
  have hj : this1.touch_data.json_events = this.touch_data.json_events := by rw [htd]
  refine ⟨⟨by omega, ?_⟩, hj⟩
  have hc : this1.touch_data.next_event.toNat
      = this.touch_data.next_event.toNat + consumed.length := by omega
  rw [hact, htab, hj, hc, List.take_add, hdrop, List.take_left, List.foldl_append]

theorem update_many_tracks (frames : List Frame) (this this1 : TouchActualizer)
    (hinv : TableTracksCursor this) (h : update_many this frames = some this1) :
    TableTracksCursor this1 ∧
    this1.touch_data.json_events = this.touch_data.json_events := by
  induction frames generalizing this with
  | nil =>
    simp only [update_many, Option.some.injEq] at h
    subst h
    exact ⟨hinv, rfl⟩
  | cons f fs ih =>
    simp only [update_many] at h
    cases hu : update_active_events this f with
    | none => rw [hu] at h; cases h
    | some t =>
      rw [hu] at h
      simp only [Option.some_bind] at h
      obtain ⟨ht, hj⟩ := update_tracks this t f hinv hu
      obtain ⟨h1, h2⟩ := ih t ht h
      exact ⟨h1, by rw [h2, hj]⟩

/-- Claim C12. After any sequence of `update_active_events` calls from the
initial state, the consumed records are the first `next_event` records of the
timeline, and for every slot `i`: the slot is occupied iff the last consumed
record with index `i` exists and parses to Down or Move, and then the slot
holds the action and the coordinates of that record. -/
theorem slot_holds_last_record (json_events : List JsonEvent) (touch_color : RGBA_color)
    (width higth : Int) (frames : List Frame) (this : TouchActualizer)
    (h : update_many (TouchActualizer_new json_events touch_color width higth) frames
      = some this)
    (i : Fin N_ACTIVE_EVENTS) :
    0 ≤ this.touch_data.next_event ∧
    this.touch_data.json_events = json_events ∧
    this.active_events
      = (json_events.take this.touch_data.next_event.toNat).foldl replay_record
          (fun _ => none) ∧
    ((this.active_events i).isSome ↔
      ∃ e, last_record (i.val : Int) (json_events.take this.touch_data.next_event.toNat)
          = some e ∧
        (parse_action e.action = ACTION.down ∨ parse_action e.action = ACTION.move)) ∧
    (∀ e, last_record (i.val : Int) (json_events.take this.touch_data.next_event.toNat)
        = some e →
      (parse_action e.action = ACTION.down ∨ parse_action e.action = ACTION.move) →
      this.active_events i = some ⟨parse_action e.action, ⟨e.x, e.y⟩⟩) := by
  have hinit : TableTracksCursor (TouchActualizer_new json_events touch_color width higth) :=
    ⟨by simp [TouchActualizer_new, TouchData_new], by simp [TouchActualizer_new, TouchData_new]⟩
  obtain ⟨⟨h0, htab⟩, hj⟩ := update_many_tracks frames _ this hinit h
  have hj1 : this.touch_data.json_events = json_events := by
    rw [hj]; rfl
  rw [hj1] at htab
  have hslot := replay_fold_slot (json_events.take this.touch_data.next_event.toNat)
    (fun _ => none) i
  rw [← htab] at hslot
  have hup : ∀ a : ACTION, (a = ACTION.down ∨ a = ACTION.move) ↔ a ≠ ACTION.up := by
    intro a; cases a <;> simp
  refine ⟨h0, hj1, htab, ?_, ?_⟩
  · rw [hslot]
    cases hl : last_record (i.val : Int) (json_events.take this.touch_data.next_event.toNat) with
    | none => simp
    | some e =>
      simp only [Option.some.injEq, exists_eq_left', hup]
      unfold slot_after
      by_cases hu : parse_action e.action = ACTION.up <;> simp [hu]
  · intro e hl hdm
    rw [hslot, hl]
    simp only
    unfold slot_after
    rw [if_neg ((hup _).mp hdm)]

/-- The two-record timeline replayed at times 10 and 60: the cursor is 2, the
last record consumed for slot 0 is the Move at (12,12), and slot 0 holds a
Move at (12,12). -/
theorem slot_holds_last_record_witness :
    update_many (TouchActualizer_new two_step_timeline green 64 64) [blank64 10, blank64 60]
      = some two_step_final ∧
    last_record 0 (two_step_timeline.take two_step_final.touch_data.next_event.toNat)
      = some (move_later 0 12 12) ∧
    two_step_final.active_events 0 = some ⟨ACTION.move, ⟨12, 12⟩⟩ :=
  ⟨rfl, by decide,
    (slot_holds_last_record two_step_timeline green 64 64 [blank64 10, blank64 60]
      two_step_final rfl 0).2.2.2.2 (move_later 0 12 12) (by decide) (by decide)⟩

/-! ## Stencil indices and the coordinates that are painted -/

theorem foldl_invariant {ι σ : Type} (P : σ → Prop) (l : List ι) (body : σ → ι → σ)
    (h : ∀ i s, i ∈ l → P s → P (body s i)) (s : σ) (hs : P s) : P (l.foldl body s) := by
  induction l generalizing s with
  | nil => exact hs
  | cons i l ih =>
    simp only [List.foldl_cons]
    exact ih (fun j t hj ht => h j t (by simp [hj]) ht) _ (h i s (by simp) hs)

theorem forLoop_invariant {σ : Type} (P : σ → Prop) (lo hi : Int) (body : Int → σ → σ)
    (h : ∀ i s, lo ≤ i → i ≤ hi → P s → P (body i s)) (s : σ) (hs : P s) :
    P (forLoop lo hi body s) := by
  unfold forLoop
  apply foldl_invariant P _ _ _ s hs
  intro k t hk ht
  have := List.mem_range.mp hk
  exact h _ t (by omega) (by omega) ht

theorem TouchMask_new_length (radius : Int) :
    (TouchMask_new radius).mask.length = (stencil_size radius).toNat := by
  unfold TouchMask_new
  simp only
  apply forLoop_invariant (fun m : List Byte => m.length = (stencil_size radius).toNat)
  · intro y m _ _ hm
    apply forLoop_invariant (fun m : List Byte => m.length = (stencil_size radius).toNat)
    · intro x m1 _ _ hm1
      split <;> simpa using hm1
    · exact hm
  · simp [stencil_size]

theorem TouchMask_new_stores (radius : Int) :
    TouchMask_new radius =
      { mask := forLoop (-radius) radius (fun y m =>
          forLoop (-radius) radius (fun x m1 =>
            if x * x + y * y ≤ radius * radius then
              m1.set (stencil_write_index radius y x).toNat 255
            else
              m1.set (stencil_write_index radius y x).toNat 0) m)
          (List.replicate (stencil_size radius).toNat 0),
        radius := radius } :=
  rfl

/-- Claim C18. For a radius that is not negative, every index that
`TouchMask_new` stores at and every index that `actualizeEvent` reads at lies
in `[0, (2r+1)*(2r+1))`, the number of cells of the stencil. -/
theorem stencil_indices_in_bounds (radius : Int) (hr : 0 ≤ radius) :
    TouchMask_new radius =
      { mask := forLoop (-radius) radius (fun y m =>
          forLoop (-radius) radius (fun x m1 =>
            if x * x + y * y ≤ radius * radius then
              m1.set (stencil_write_index radius y x).toNat 255
            else
              m1.set (stencil_write_index radius y x).toNat 0) m)
          (List.replicate (stencil_size radius).toNat 0),
        radius := radius } ∧
    (TouchMask_new radius).mask.length = (stencil_size radius).toNat ∧
    (TouchMask_new radius).radius = radius ∧
    (∀ y x : Int, -radius ≤ y → y ≤ radius → -radius ≤ x → x ≤ radius →
      0 ≤ stencil_write_index radius y x ∧
      stencil_write_index radius y x < stencil_size radius ∧
      (stencil_write_index radius y x).toNat < (TouchMask_new radius).mask.length) ∧
    (∀ y x : Int, 0 ≤ y → y ≤ 2 * radius → 0 ≤ x → x ≤ 2 * radius →
      0 ≤ stencil_read_index radius y x ∧
      stencil_read_index radius y x < stencil_size radius ∧
      (stencil_read_index radius y x).toNat < (TouchMask_new radius).mask.length ∧
      mask_cell (TouchMask_new radius) y x
        = (TouchMask_new radius).mask.getD (stencil_read_index radius y x).toNat 0) := by
  have hlen := TouchMask_new_length radius
  refine ⟨TouchMask_new_stores radius, hlen, rfl, ?_, ?_⟩
  · intro y x hy0 hy1 hx0 hx1
    have h1 : 0 ≤ (y + radius) * radius := mul_nonneg (by omega) hr
    have h2 : 0 ≤ (radius - y) * radius := mul_nonneg (by omega) hr
    have hw0 : 0 ≤ stencil_write_index radius y x := by
      unfold stencil_write_index; nlinarith
    have hw1 : stencil_write_index radius y x < stencil_size radius := by
      unfold stencil_write_index stencil_size; nlinarith
    refine ⟨hw0, hw1, ?_⟩
    rw [hlen]
    omega
  · intro y x hy0 hy1 hx0 hx1
    have h1 : 0 ≤ y * radius := mul_nonneg hy0 hr
    have h2 : 0 ≤ (2 * radius - y) * radius := mul_nonneg (by omega) hr
    have hr0 : 0 ≤ stencil_read_index radius y x := by
      unfold stencil_read_index; nlinarith
    have hr1 : stencil_read_index radius y x < stencil_size radius := by
      unfold stencil_read_index stencil_size; nlinarith
    refine ⟨hr0, hr1, ?_, rfl⟩
    rw [hlen]
    omega

/-- Radius 4: the stencil has 81 cells, the stores run up to index 72 and so
do the reads. -/
theorem stencil_indices_in_bounds_witness :
    (0 : Int) ≤ 4 ∧
    (TouchMask_new 4).mask.length = 81 ∧
    stencil_write_index 4 4 4 = 72 ∧
    (stencil_write_index 4 4 4).toNat < (TouchMask_new 4).mask.length ∧
    stencil_read_index 4 8 8 = 72 ∧
    (stencil_read_index 4 8 8).toNat < (TouchMask_new 4).mask.length :=
  have h := stencil_indices_in_bounds 4 (by decide)
  ⟨by decide, h.2.1.trans (by decide), by decide,
    (h.2.2.2.1 4 4 (by decide) (by decide) (by decide) (by decide)).2.2, by decide,
    (h.2.2.2.2 8 8 (by decide) (by decide) (by decide) (by decide)).2.2.1⟩


theorem foldl_if_filterMap {ι σ κ : Type} (l : List ι) (p : ι → Prop) [DecidablePred p]
    (g : ι → κ) (effect : κ → σ → σ) (s : σ) :
    l.foldl (fun acc i => if p i then effect (g i) acc else acc) s
      = (l.filterMap (fun i => if p i then some (g i) else none)).foldl
          (fun acc c => effect c acc) s := by
  induction l generalizing s with
  | nil => rfl
  | cons i l ih =>
    by_cases hp : p i
    · simp only [List.foldl_cons, if_pos hp, List.filterMap_cons]
      exact ih _
    · simp only [List.foldl_cons, if_neg hp, List.filterMap_cons]
      exact ih _

theorem foldl_flatMap {ι σ κ : Type} (l : List ι) (f : ι → List κ) (effect : κ → σ → σ)
    (s : σ) :
    l.foldl (fun acc i => (f i).foldl (fun acc1 c => effect c acc1) acc) s
      = (l.flatMap f).foldl (fun acc c => effect c acc) s := by
  induction l generalizing s with
  | nil => rfl
  | cons i l ih =>
    simp only [List.foldl_cons, List.flatMap_cons, List.foldl_append]
    exact ih _

theorem stencil_loops_fold {σ : Type} (touch_mask : TouchMask) (event : Event)
    (effect : Coordinate → σ → σ) (s : σ) :
    stencil_loops touch_mask event effect s
      = (painted_coords touch_mask event).foldl (fun acc c => effect c acc) s := by
  unfold stencil_loops painted_coords forLoop
  simp only [Int.sub_zero, Int.zero_add]
  rw [← foldl_flatMap]
  congr 1
  funext acc row
  exact foldl_if_filterMap _ (fun (col : Nat) => mask_cell touch_mask (row : Int) (col : Int) ≠ 0)
    (fun (col : Nat) => (⟨event.coord.x - touch_mask.radius + (col : Int),
      event.coord.y - touch_mask.radius + (row : Int)⟩ : Coordinate))
    effect acc

theorem mem_painted_coords (touch_mask : TouchMask) (event : Event) (c : Coordinate) :
    c ∈ painted_coords touch_mask event ↔
      ∃ row col : Int, 0 ≤ row ∧ row ≤ 2 * touch_mask.radius ∧
        0 ≤ col ∧ col ≤ 2 * touch_mask.radius ∧
        mask_cell touch_mask row col ≠ 0 ∧
        c = { x := event.coord.x - touch_mask.radius + col,
              y := event.coord.y - touch_mask.radius + row } := by
  unfold painted_coords
  simp only [List.mem_flatMap, List.mem_filterMap, List.mem_range]
  constructor
  · rintro ⟨row, hrow, col, hcol, h⟩
    split at h
    · rename_i hm
      simp only [Option.some.injEq] at h
      exact ⟨row, col, by omega, by omega, by omega, by omega, hm, h.symm⟩
    · cases h
  · rintro ⟨row, col, hr0, hr1, hc0, hc1, hm, hc⟩
    refine ⟨row.toNat, by omega, col.toNat, by omega, ?_⟩
    have e1 : ((row.toNat : Nat) : Int) = row := by omega
    have e2 : ((col.toNat : Nat) : Int) = col := by omega
    rw [e1, e2, if_pos hm, hc]

theorem painted_coords_nodup (touch_mask : TouchMask) (event : Event) :
    (painted_coords touch_mask event).Nodup := by
  unfold painted_coords
  rw [List.nodup_flatMap]
  constructor
  · intro row _
    apply List.Nodup.filterMap _ (List.nodup_range _)
    intro a b c ha hb
    split at ha
    · split at hb
      · simp only [Option.mem_def, Option.some.injEq] at ha hb
        have := congrArg Coordinate.x (ha.trans hb.symm)
        simp only at this
        omega
      · cases hb
    · cases ha
  · apply (List.pairwise_lt_range _).imp
    intro a b hab c hca hcb
    simp only [List.mem_filterMap, List.mem_range] at hca hcb
    obtain ⟨x1, _, h1⟩ := hca
    obtain ⟨x2, _, h2⟩ := hcb
    split at h1
    · split at h2
      · simp only [Option.some.injEq] at h1 h2
        have := congrArg Coordinate.y (h1.trans h2.symm)
        simp only at this
        omega
      · cases h2
    · cases h1

/-- Claim C17. `actualizeEvent` takes the Down stencil iff the action of the
touch is Down and the Move stencil otherwise, and what it does to the frame is
the pixel effect applied along `painted_coords`, whatever the effect is: that
list has no coordinate twice and holds exactly the coordinates
`(tx - r + col, ty - r + row)` of the set cells `(col, row)` in `0..2r`. -/
theorem actualizeEvent_paints_set_cells (inverted : Bool) (this : TouchActualizer)
    (event : Event) (frame : Frame) :
    (event.action = ACTION.down →
      actualizeEvent inverted this event frame
        = stencil_loops this.down_touch_mask event
            (pixel_op inverted this.touch_data.touch_color) frame) ∧
    (event.action ≠ ACTION.down →
      actualizeEvent inverted this event frame
        = stencil_loops this.move_touch_mask event
            (pixel_op inverted this.touch_data.touch_color) frame) ∧
    (∀ (touch_mask : TouchMask) (σ : Type) (effect : Coordinate → σ → σ) (s : σ),
      stencil_loops touch_mask event effect s
        = (painted_coords touch_mask event).foldl (fun acc c => effect c acc) s) ∧
    (∀ touch_mask : TouchMask,
      stencil_loops touch_mask event (fun c (calls : List Coordinate) => calls ++ [c]) []
        = painted_coords touch_mask event) ∧
    (∀ touch_mask : TouchMask, (painted_coords touch_mask event).Nodup) ∧
    (∀ (touch_mask : TouchMask) (c : Coordinate),
      c ∈ painted_coords touch_mask event ↔
        ∃ row col : Int, 0 ≤ row ∧ row ≤ 2 * touch_mask.radius ∧
          0 ≤ col ∧ col ≤ 2 * touch_mask.radius ∧
          mask_cell touch_mask row col ≠ 0 ∧
          c = { x := event.coord.x - touch_mask.radius + col,
                y := event.coord.y - touch_mask.radius + row }) := by
  refine ⟨?_, ?_, ?_, ?_, ?_, ?_⟩
  · intro h
    unfold actualizeEvent
    rw [if_pos h]
    rfl
  · intro h
    unfold actualizeEvent
    rw [if_neg h]
    rfl
  · intro touch_mask σ effect s
    exact stencil_loops_fold touch_mask event effect s
  · intro touch_mask
    rw [stencil_loops_fold]
    generalize painted_coords touch_mask event = l
    have : ∀ acc : List Coordinate,
        l.foldl (fun acc c => acc ++ [c]) acc = acc ++ l := by
      induction l with
      | nil => intro acc; simp
      | cons c l ih => intro acc; simp [ih]
    simpa using this []
  · intro touch_mask
    exact painted_coords_nodup touch_mask event
  · intro touch_mask c
    exact mem_painted_coords touch_mask event c

set_option maxRecDepth 1000000 in
/-- The Down touch at (10,10) of the scenario uses the radius-4 stencil; the
Move touch uses the radius-2 stencil; the centre cell (4,4) of the radius-4
stencil is set and gives the coordinate (10,10). -/
theorem actualizeEvent_paints_set_cells_witness :
    actualizeEvent true scenario_state ⟨ACTION.down, ⟨10, 10⟩⟩ (blank64 0)
      = stencil_loops (TouchMask_new 4) ⟨ACTION.down, ⟨10, 10⟩⟩
          (pixel_op true green) (blank64 0) ∧
    actualizeEvent true scenario_state ⟨ACTION.move, ⟨10, 10⟩⟩ (blank64 0)
      = stencil_loops (TouchMask_new 2) ⟨ACTION.move, ⟨10, 10⟩⟩
          (pixel_op true green) (blank64 0) ∧
    (⟨10, 10⟩ : Coordinate) ∈ painted_coords (TouchMask_new 4) ⟨ACTION.down, ⟨10, 10⟩⟩ ∧
    (painted_coords (TouchMask_new 1) ⟨ACTION.down, ⟨10, 10⟩⟩)
      = [⟨10, 9⟩, ⟨11, 9⟩, ⟨9, 10⟩, ⟨10, 10⟩, ⟨10, 11⟩] :=
  have h := actualizeEvent_paints_set_cells true scenario_state ⟨ACTION.down, ⟨10, 10⟩⟩
    (blank64 0)
  have h2 := actualizeEvent_paints_set_cells true scenario_state ⟨ACTION.move, ⟨10, 10⟩⟩
    (blank64 0)
  ⟨h.1 rfl, h2.2.1 (by decide),
    (h.2.2.2.2.2 (TouchMask_new 4) ⟨10, 10⟩).mpr
      ⟨4, 4, by decide, by decide, by decide, by decide, by decide, by decide⟩,
    by decide⟩

/-! ## Order of the slots -/

theorem XorOp_commute (g1 g2 : Frame → Frame) (h1 : XorOp g1) (h2 : XorOp g2)
    (frame : Frame) : g2 (g1 frame) = g1 (g2 frame) := by
  obtain ⟨mem, l, w, h, t⟩ := frame
  obtain ⟨m1, hm1⟩ := h1 l w h t
  obtain ⟨m2, hm2⟩ := h2 l w h t
  rw [hm1, hm2, hm2, hm1]
  simp only [Frame.mk.injEq, and_true]
  funext a
  rw [byte_xor_assoc, byte_xor_assoc, byte_xor_comm (m1 a)]

theorem slot_step_XorOp (this : TouchActualizer) (i : Fin N_ACTIVE_EVENTS) :
    XorOp (fun fr =>
      match this.active_events i with
      | none => fr
      | some event => actualizeEvent true this event fr) := by
  cases this.active_events i with
  | none => exact XorOp_id
  | some event =>
    exact actualizeEvent_closed XorOp XorOp_id XorOp_comp true this
      (fun c => XorOp_invertPixel c) event

theorem invert_order_irrelevant (this : TouchActualizer)
    (o1 o2 : List (Fin N_ACTIVE_EVENTS)) (hp : o1.Perm o2) (frame : Frame) :
    actualizeEvents_in_order true this o1 frame = actualizeEvents_in_order true this o2 frame := by
  unfold actualizeEvents_in_order
  apply List.Perm.foldl_eq' hp
  intro i _ j _ fr
  exact XorOp_commute _ _ (slot_step_XorOp this i) (slot_step_XorOp this j) fr

theorem actualizeEvent_fold (inverted : Bool) (this : TouchActualizer) (event : Event)
    (frame : Frame) :
    actualizeEvent inverted this event frame
      = (painted_coords (selected_mask this event) event).foldl
          (fun acc c => pixel_op inverted this.touch_data.touch_color c acc) frame := by
  rw [← stencil_loops_fold]
  rfl

theorem actualizeEvents_fold (inverted : Bool) (this : TouchActualizer) (frame : Frame) :
    actualizeEvents inverted this frame
      = (all_painted_coords this).foldl
          (fun acc c => pixel_op inverted this.touch_data.touch_color c acc) frame := by
  unfold actualizeEvents all_painted_coords
  rw [← foldl_flatMap]
  congr 1
  funext fr i
  unfold slot_coords
  cases this.active_events i with
  | none => rfl
  | some event => exact actualizeEvent_fold inverted this event fr

theorem invertPixel_byte (frame : Frame) (c : Coordinate) (a : Int) :
    (invertPixel frame c).image_data a
      = (if inverts frame c a then frame.image_data a ^^^ 0xFF else frame.image_data a) ∧
    (invertPixel frame c).linesize = frame.linesize ∧
    (invertPixel frame c).width = frame.width ∧
    (invertPixel frame c).higth = frame.higth := by
  unfold inverts
  by_cases hs : c.y > frame.higth ∨ c.y < 0 ∨ c.x > frame.width ∨ c.x < 0
  · simp [invertPixel, hs]
  · simp only [invertPixel, if_neg hs, poke, not_false_eq_true, true_and, decide_eq_true_eq,
      and_self, and_true]
    split_ifs <;> (try subst_vars) <;> first | rfl | omega | exact byte_xor_zero _

theorem inverts_geometry (f1 f2 : Frame) (h1 : f1.linesize = f2.linesize)
    (h2 : f1.width = f2.width) (h3 : f1.higth = f2.higth) (c : Coordinate) (a : Int) :
    inverts f1 c a = inverts f2 c a := by
  unfold inverts
  rw [h1, h2, h3]

theorem invert_fold_byte (l : List Coordinate) (frame : Frame) (a : Int) :
    (l.foldl (fun acc c => invertPixel acc c) frame).image_data a
      = if l.countP (fun c => inverts frame c a) % 2 = 0 then frame.image_data a
        else frame.image_data a ^^^ 0xFF := by
  induction l generalizing frame with
  | nil => simp
  | cons c l ih =>
    simp only [List.foldl_cons, List.countP_cons]
    rw [ih]
    obtain ⟨hb, g1, g2, g3⟩ := invertPixel_byte frame c a
    have hg : (fun c1 => inverts (invertPixel frame c) c1 a) = (fun c1 => inverts frame c1 a) := by
      funext c1
      exact inverts_geometry _ _ g1 g2 g3 c1 a
    rw [hg, hb]
    by_cases hi : inverts frame c a = true
    · simp only [hi, if_true]
      by_cases hp : List.countP (fun c1 => inverts frame c1 a) l % 2 = 0
      · have : (List.countP (fun c1 => inverts frame c1 a) l + 1) % 2 ≠ 0 := by omega
        rw [if_pos hp, if_neg this]
      · have : (List.countP (fun c1 => inverts frame c1 a) l + 1) % 2 = 0 := by omega
        rw [if_neg hp, if_pos this, byte_xor_cancel]
    · simp only [hi, Bool.false_eq_true, if_false, Nat.add_zero]

theorem countP_le_one_of_nodup {α : Type} (l : List α) (p : α → Bool) (hn : l.Nodup)
    (hinj : ∀ c1 ∈ l, ∀ c2 ∈ l, p c1 = true → p c2 = true → c1 = c2) :
    l.countP p ≤ 1 := by
  induction l with
  | nil => simp
  | cons c l ih =>
    rw [List.countP_cons]
    have hn1 := List.nodup_cons.mp hn
    have ih1 := ih hn1.2 (fun c1 h1 c2 h2 => hinj c1 (by simp [h1]) c2 (by simp [h2]))
    by_cases hp : p c = true
    · have hz : l.countP p = 0 := by
        rw [List.countP_eq_zero]
        intro c1 h1 hp1
        have := hinj c (by simp) c1 (by simp [h1]) hp hp1
        exact hn1.1 (this ▸ h1)
      rw [hz, if_pos hp]
    · rw [if_neg hp]
      omega

theorem countP_flatMap_any {ι α : Type} (l : List ι) (f : ι → List α) (p : α → Bool)
    (h : ∀ i ∈ l, (f i).countP p ≤ 1) :
    (l.flatMap f).countP p = l.countP (fun i => (f i).any p) := by
  induction l with
  | nil => rfl
  | cons i l ih =>
    rw [List.flatMap_cons, List.countP_append, List.countP_cons,
      ih (fun j hj => h j (by simp [hj]))]
    have hi := h i (by simp)
    by_cases ha : (f i).any p = true
    · have hpos : 0 < (f i).countP p := by
        rw [List.countP_pos_iff]
        exact List.any_eq_true.mp ha
      rw [if_pos ha]
      omega
    · have hz : (f i).countP p = 0 := by
        rw [List.countP_eq_zero]
        intro c hc hp
        exact ha (List.any_eq_true.mpr ⟨c, hc, hp⟩)
      rw [if_neg ha, hz]
      omega

theorem inverts_injective (frame : Frame) (hl : 4 * (frame.width + 1) ≤ frame.linesize)
    (c1 c2 : Coordinate) (a : Int)
    (h1 : inverts frame c1 a = true) (h2 : inverts frame c2 a = true) : c1 = c2 := by
  unfold inverts at h1 h2
  simp only [decide_eq_true_eq] at h1 h2
  obtain ⟨hs1, ha1⟩ := h1
  obtain ⟨hs2, ha2⟩ := h2
  have hx1 : 0 ≤ c1.x ∧ c1.x ≤ frame.width := by omega
  have hx2 : 0 ≤ c2.x ∧ c2.x ≤ frame.width := by omega
  have hy : c1.y = c2.y := by
    rcases Int.lt_trichotomy c1.y c2.y with h | h | h
    · exfalso
      have hm : 0 ≤ (c2.y - c1.y - 1) * frame.linesize := mul_nonneg (by omega) (by omega)
      have e : (c2.y - c1.y - 1) * frame.linesize
          = c2.y * frame.linesize - c1.y * frame.linesize - frame.linesize := by ring
      omega
    · exact h
    · exfalso
      have hm : 0 ≤ (c1.y - c2.y - 1) * frame.linesize := mul_nonneg (by omega) (by omega)
      have e : (c1.y - c2.y - 1) * frame.linesize
          = c1.y * frame.linesize - c2.y * frame.linesize - frame.linesize := by ring
      omega
  have hx : c1.x = c2.x := by
    rw [hy] at ha1
    omega
  cases c1
  cases c2
  simp only at hx hy
  rw [hx, hy]

theorem slot_coords_nodup (this : TouchActualizer) (i : Fin N_ACTIVE_EVENTS) :
    (slot_coords this i).Nodup := by
  unfold slot_coords
  cases this.active_events i with
  | none => exact List.nodup_nil
  | some event => exact painted_coords_nodup _ event

theorem hit_count_eq_covering (this : TouchActualizer) (frame : Frame)
    (hl : 4 * (frame.width + 1) ≤ frame.linesize) (a : Int) :
    hit_count this frame a = covering_indicators this frame a := by
  unfold hit_count covering_indicators all_painted_coords
  apply countP_flatMap_any
  intro i _
  apply countP_le_one_of_nodup _ _ (slot_coords_nodup this i)
  intro c1 _ c2 _ h1 h2
  exact inverts_injective frame hl c1 c2 a h1 h2

theorem two_coincident_cancel (this : TouchActualizer) (frame : Frame)
    (i j : Fin N_ACTIVE_EVENTS) (event : Event) (hij : i ≠ j)
    (hi : this.active_events i = some event) (hj : this.active_events j = some event)
    (hrest : ∀ k, k ≠ i → k ≠ j → this.active_events k = none) :
    actualizeEvents true this frame = frame := by
  have hp : (List.finRange N_ACTIVE_EVENTS).Perm
      (i :: j :: ((List.finRange N_ACTIVE_EVENTS).erase i).erase j) := by
    have h1 := List.perm_cons_erase (List.mem_finRange i)
    have hjm : j ∈ (List.finRange N_ACTIVE_EVENTS).erase i :=
      ((List.nodup_finRange _).mem_erase_iff).mpr ⟨fun h => hij h.symm, List.mem_finRange j⟩
    exact h1.trans ((List.perm_cons_erase hjm).cons i)
  have hfold : actualizeEvents true this frame
      = actualizeEvents_in_order true this
          (i :: j :: ((List.finRange N_ACTIVE_EVENTS).erase i).erase j) frame :=
    invert_order_irrelevant this _ _ hp frame
  rw [hfold]
  unfold actualizeEvents_in_order
  simp only [List.foldl_cons, hi, hj]
  have htwice : actualizeEvent true this event (actualizeEvent true this event frame) = frame :=
    XorOp_twice _ (actualizeEvent_closed XorOp XorOp_id XorOp_comp true this
      (fun c => XorOp_invertPixel c) event) frame
  rw [htwice]
  apply foldl_invariant (fun fr => fr = frame) _ _ _ frame rfl
  intro k fr hk hfr
  have hk1 := ((List.nodup_finRange _).erase i).mem_erase_iff.mp hk
  have hk2 := ((List.nodup_finRange _).mem_erase_iff).mp hk1.2
  rw [hrest k hk2.1 hk1.1]
  exact hfr

/-- Facts about the inversions on every frame, in Invert mode: if exactly two
slots are occupied and hold the same action and coordinates, the paint pass
gives back the frame unchanged; a byte that an even number of the
`invertPixel` calls of the pass invert ends with its original value and a byte
that an odd number invert ends XORed with 0xFF.  On a frame whose rows have
room for `width + 1` pixels that number of calls is the number of slots whose
indicator inverts the byte. -/
theorem coincident_indicators_cancel (this : TouchActualizer) (frame : Frame) :
    (∀ (i j : Fin N_ACTIVE_EVENTS) (event : Event), i ≠ j →
      this.active_events i = some event → this.active_events j = some event →
      (∀ k, k ≠ i → k ≠ j → this.active_events k = none) →
      actualizeEvents true this frame = frame) ∧
    (∀ a : Int, (actualizeEvents true this frame).image_data a
      = if hit_count this frame a % 2 = 0 then frame.image_data a
        else frame.image_data a ^^^ 0xFF) ∧
    (4 * (frame.width + 1) ≤ frame.linesize →
      ∀ a : Int, hit_count this frame a = covering_indicators this frame a) := by
  refine ⟨?_, ?_, ?_⟩
  · intro i j event hij hi hj hrest
    exact two_coincident_cancel this frame i j event hij hi hj hrest
  · intro a
    rw [actualizeEvents_fold]
    exact invert_fold_byte (all_painted_coords this) frame a
  · intro hl a
    exact hit_count_eq_covering this frame hl a

set_option maxRecDepth 1000000 in
/-- Claim C20, evaluated on the code.  On the blank 64x64 frame with 256 bytes
per row, slots 0 and 1 hold a Down at (2,10) and slot 2 a Down at (60,10).
The pixel (0,10) is among the coordinates of exactly two indicators, those of
slots 0 and 1.  The indicator of slot 2 calls `invertPixel` at (64,9), which
the clipping test `x > width` does not skip, and the store lands at offset
9*256 + 64*4 = 2560, the pixel (0,10).  Three calls invert its bytes and the
pixel ends inverted. -/
theorem even_cover_inverted_by_unclipped_call :
    update_active_events (TouchActualizer_new triple_timeline green 64 64) (blank64 0)
      = some triple_state ∧
    (List.finRange N_ACTIVE_EVENTS).countP
        (fun i => decide ((⟨0, 10⟩ : Coordinate) ∈ slot_coords triple_state i)) = 2 ∧
    (⟨0, 10⟩ : Coordinate) ∈ slot_coords triple_state 0 ∧
    (⟨0, 10⟩ : Coordinate) ∈ slot_coords triple_state 1 ∧
    (⟨0, 10⟩ : Coordinate) ∉ slot_coords triple_state 2 ∧
    (⟨64, 9⟩ : Coordinate) ∈ slot_coords triple_state 2 ∧
    inverts (blank64 0) ⟨64, 9⟩ (10 * 256 + 0 * 4) = true ∧
    hit_count triple_state (blank64 0) (10 * 256 + 0 * 4) = 3 ∧
    hit_count triple_state (blank64 0) (10 * 256 + 0 * 4 + 1) = 3 ∧
    hit_count triple_state (blank64 0) (10 * 256 + 0 * 4 + 2) = 3 ∧
    (blank64 0).image_data (10 * 256 + 0 * 4) = 0 ∧
    (actualizeEvents true triple_state (blank64 0)).image_data (10 * 256 + 0 * 4) = 255 ∧
    (actualizeEvents true triple_state (blank64 0)).image_data (10 * 256 + 0 * 4 + 1) = 255 ∧
    (actualizeEvents true triple_state (blank64 0)).image_data (10 * 256 + 0 * 4 + 2) = 255 := by
  have hb := (coincident_indicators_cancel triple_state (blank64 0)).2.1
  have h0 : hit_count triple_state (blank64 0) (10 * 256 + 0 * 4) = 3 := by decide
  have h1 : hit_count triple_state (blank64 0) (10 * 256 + 0 * 4 + 1) = 3 := by decide
  have h2 : hit_count triple_state (blank64 0) (10 * 256 + 0 * 4 + 2) = 3 := by decide
  refine ⟨rfl, by decide, by decide, by decide, by decide, by decide, by decide, h0, h1, h2,
    by decide, ?_, ?_, ?_⟩
  · rw [hb, h0]; decide
  · rw [hb, h1]; decide
  · rw [hb, h2]; decide

/-! ## The stencil that the stores leave behind -/

theorem fill_row_spec (v : Nat → Byte) (base w : Nat) (m : List Byte) :
    (fill_row v base w m).length = m.length ∧
    ∀ k, (fill_row v base w m)[k]?
      = if base ≤ k ∧ k < base + w ∧ k < m.length then some (v (k - base)) else m[k]? := by
  induction w with
  | zero =>
    refine ⟨rfl, fun k => ?_⟩
    have : ¬ (base ≤ k ∧ k < base + 0 ∧ k < m.length) := by omega
    rw [if_neg this]
    rfl
  | succ w ih =>
    have hstep : fill_row v base (w + 1) m = (fill_row v base w m).set (base + w) (v w) := by
      unfold fill_row
      rw [List.range_succ, List.foldl_append]
      rfl
    obtain ⟨hlen, hget⟩ := ih
    rw [hstep]
    refine ⟨by rw [List.length_set, hlen], fun k => ?_⟩
    rw [List.getElem?_set, hget k, hlen]
    by_cases hk : base + w = k
    · subst hk
      rw [if_pos rfl]
      by_cases hl : base + w < m.length
      · rw [if_pos hl, if_pos ⟨by omega, by omega, hl⟩]
        congr 2
        omega
      · rw [if_neg hl]
        have h1 : ¬ (base ≤ base + w ∧ base + w < base + (w + 1) ∧ base + w < m.length) := by
          omega
        rw [if_neg h1]
        exact (List.getElem?_eq_none (by omega)).symm
    · rw [if_neg hk]
      by_cases hc : base ≤ k ∧ k < base + w ∧ k < m.length
      · rw [if_pos hc, if_pos ⟨hc.1, by omega, hc.2.2⟩]
      · rw [if_neg hc]
        have h1 : ¬ (base ≤ k ∧ k < base + (w + 1) ∧ k < m.length) := by omega
        rw [if_neg h1]

theorem fill_rows_spec (d : Nat → Nat → Byte) (stride rows : Nat) (m : List Byte)
    (hlen : rows * stride + 1 ≤ m.length) :
    (fill_rows d stride rows m).length = m.length ∧
    (∀ row col, row < rows → col < stride →
      (fill_rows d stride rows m)[row * stride + col]? = some (d row col)) ∧
    (∀ row, row + 1 = rows →
      (fill_rows d stride rows m)[row * stride + stride]? = some (d row stride)) := by
  induction rows with
  | zero =>
    refine ⟨rfl, ?_, ?_⟩
    · intro row col h; omega
    · intro row h; omega
  | succ j ih =>
    have hstep : fill_rows d stride (j + 1) m
        = fill_row (d j) (j * stride) (stride + 1) (fill_rows d stride j m) := by
      unfold fill_rows
      rw [List.range_succ, List.foldl_append]
      rfl
    have e1 : (j + 1) * stride = j * stride + stride := by ring
    obtain ⟨hl, hcells, -⟩ := ih (by omega)
    obtain ⟨hl1, hget⟩ := fill_row_spec (d j) (j * stride) (stride + 1) (fill_rows d stride j m)
    rw [hstep]
    refine ⟨by rw [hl1, hl], ?_, ?_⟩
    · intro row col hrow hcol
      rw [hget, hl]
      by_cases hj : row = j
      · subst hj
        rw [if_pos ⟨by omega, by omega, by omega⟩]
        congr 2
        omega
      · have hlt : row < j := by omega
        have hm : (row + 1) * stride ≤ j * stride := Nat.mul_le_mul_right stride hlt
        have e2 : (row + 1) * stride = row * stride + stride := by ring
        have h1 : ¬ (j * stride ≤ row * stride + col ∧
            row * stride + col < j * stride + (stride + 1) ∧
            row * stride + col < m.length) := by omega
        rw [if_neg h1]
        exact hcells row col hlt hcol
    · intro row hrow
      have hj : row = j := by omega
      subst hj
      rw [hget, hl, if_pos ⟨by omega, by omega, by omega⟩]
      congr 2
      omega

theorem TouchMask_new_fill (n : Nat) :
    (TouchMask_new (n : Int)).mask
      = fill_rows (disk_value n) (2 * n) (2 * n + 1)
          (List.replicate ((2 * n + 1) * (2 * n + 1)) 0) := by
  have hsz : ((2 * (n : Int) + 1) * (2 * (n : Int) + 1)).toNat = (2 * n + 1) * (2 * n + 1) := by
    have : (2 * (n : Int) + 1) * (2 * (n : Int) + 1) = (((2 * n + 1) * (2 * n + 1) : Nat) : Int) := by
      push_cast; ring
    rw [this, Int.toNat_natCast]
  have hcnt : ((n : Int) + 1 - -(n : Int)).toNat = 2 * n + 1 := by omega
  unfold TouchMask_new fill_rows fill_row forLoop
  simp only [hsz, hcnt]
  congr 1
  funext acc ky
  congr 1
  funext acc1 kx
  have hidx : ((-(n : Int) + (ky : Int) + (n : Int)) * 2 * (n : Int) + (-(n : Int) + (kx : Int))
      + (n : Int)).toNat = ky * (2 * n) + kx := by
    have : (-(n : Int) + (ky : Int) + (n : Int)) * 2 * (n : Int) + (-(n : Int) + (kx : Int))
        + (n : Int) = ((ky * (2 * n) + kx : Nat) : Int) := by
      push_cast; ring
    rw [this, Int.toNat_natCast]
  rw [hidx]
  unfold disk_value
  have hx : -(n : Int) + (kx : Int) = (kx : Int) - n := by ring
  have hy : -(n : Int) + (ky : Int) = (ky : Int) - n := by ring
  rw [hx, hy]
  split <;> rfl

theorem mask_cell_fill (n row col : Nat) (hrow : row ≤ 2 * n) (hcol : col ≤ 2 * n) :
    mask_cell (TouchMask_new (n : Int)) (row : Int) (col : Int)
      = if col < 2 * n then disk_value n row col
        else if row < 2 * n then disk_value n (row + 1) 0
        else disk_value n (2 * n) (2 * n) := by
  have hidx : ((row : Int) * 2 * (n : Int) + (col : Int)).toNat = row * (2 * n) + col := by
    have : (row : Int) * 2 * (n : Int) + (col : Int) = ((row * (2 * n) + col : Nat) : Int) := by
      push_cast; ring
    rw [this, Int.toNat_natCast]
  have hrad : (TouchMask_new (n : Int)).radius = (n : Int) := rfl
  unfold mask_cell
  simp only [hrad, hidx, List.getD_eq_getElem?_getD]
  rw [TouchMask_new_fill]
  have hsz : (2 * n + 1) * (2 * n) + 1
      ≤ (List.replicate ((2 * n + 1) * (2 * n + 1)) (0 : Byte)).length := by
    rw [List.length_replicate]
    have : (2 * n + 1) * (2 * n + 1) = (2 * n + 1) * (2 * n) + (2 * n + 1) := by ring
    omega
  obtain ⟨-, hcells, hlast⟩ := fill_rows_spec (disk_value n) (2 * n) (2 * n + 1) _ hsz
  by_cases hc : col < 2 * n
  · rw [if_pos hc, hcells row col (by omega) hc]
    rfl
  · have hc2 : col = 2 * n := by omega
    rw [if_neg hc]
    by_cases hr : row < 2 * n
    · rw [if_pos hr]
      have e : row * (2 * n) + col = (row + 1) * (2 * n) + 0 := by
        rw [hc2]; ring
      rw [e, hcells (row + 1) 0 (by omega) (by omega)]
      rfl
    · have hr2 : row = 2 * n := by omega
      rw [if_neg hr, hc2, hr2, hlast (2 * n) rfl]
      rfl

theorem disk_value_ne_zero (n ky kx : Nat) :
    disk_value n ky kx ≠ 0 ↔
      ((kx : Int) - n) * ((kx : Int) - n) + ((ky : Int) - n) * ((ky : Int) - n)
        ≤ (n : Int) * n := by
  unfold disk_value
  split
  · simp [*]
  · simp [*]

/-- Claim C19. For a radius of at least 1: every cell in a column before the
last reads as the disk test says; a cell in the last column, `dx = r`, reads
as set iff `dy = -1`; so for a touch at `(tx, ty)` the coordinate
`(tx + r, ty)` is not among the painted coordinates and `(tx + r, ty - 1)`
is. -/
theorem stencil_stride_shifts_last_column (radius : Int) (hr : 1 ≤ radius) :
    (∀ dx dy : Int, -radius ≤ dx → dx < radius → -radius ≤ dy → dy ≤ radius →
      (mask_cell (TouchMask_new radius) (dy + radius) (dx + radius) ≠ 0 ↔
        dx * dx + dy * dy ≤ radius * radius)) ∧
    (∀ dy : Int, -radius ≤ dy → dy ≤ radius →
      (mask_cell (TouchMask_new radius) (dy + radius) (radius + radius) ≠ 0 ↔ dy = -1)) ∧
    (∀ event : Event,
      (⟨event.coord.x + radius, event.coord.y⟩ : Coordinate)
        ∉ painted_coords (TouchMask_new radius) event ∧
      (⟨event.coord.x + radius, event.coord.y - 1⟩ : Coordinate)
        ∈ painted_coords (TouchMask_new radius) event) := by
  obtain ⟨n, rfl⟩ := Int.eq_ofNat_of_zero_le (by omega : 0 ≤ radius)
  have hn : 1 ≤ n := by omega
  have hlast : ∀ dy : Int, -(n : Int) ≤ dy → dy ≤ (n : Int) →
      (mask_cell (TouchMask_new (n : Int)) (dy + (n : Int)) ((n : Int) + (n : Int)) ≠ 0 ↔
        dy = -1) := by
    intro dy hy0 hy1
    obtain ⟨row, hrow⟩ := Int.eq_ofNat_of_zero_le (by omega : 0 ≤ dy + (n : Int))
    have hcol : (n : Int) + (n : Int) = ((2 * n : Nat) : Int) := by push_cast; ring
    rw [hrow, hcol, mask_cell_fill n row (2 * n) (by omega) (by omega),
      if_neg (by omega : ¬ 2 * n < 2 * n)]
    by_cases hr2 : row < 2 * n
    · rw [if_pos hr2, disk_value_ne_zero]
      push_cast
      constructor
      · intro h
        have h1 : (((row : Int) + 1 - n) * ((row : Int) + 1 - n)) ≤ 0 := by nlinarith
        have h2 : (row : Int) + 1 - n = 0 :=
          mul_self_eq_zero.mp (le_antisymm h1 (mul_self_nonneg _))
        omega
      · intro h
        have h2 : (row : Int) + 1 - n = 0 := by omega
        rw [h2]
        nlinarith
    · rw [if_neg hr2, disk_value_ne_zero]
      push_cast
      constructor
      · intro h
        exfalso
        have h1 : (1 : Int) ≤ n := by omega
        nlinarith
      · intro h
        omega
  refine ⟨?_, hlast, ?_⟩
  · intro dx dy hx0 hx1 hy0 hy1
    obtain ⟨row, hrow⟩ := Int.eq_ofNat_of_zero_le (by omega : 0 ≤ dy + (n : Int))
    obtain ⟨col, hcol⟩ := Int.eq_ofNat_of_zero_le (by omega : 0 ≤ dx + (n : Int))
    rw [hrow, hcol, mask_cell_fill n row col (by omega) (by omega),
      if_pos (by omega : col < 2 * n), disk_value_ne_zero]
    have ex : (col : Int) - n = dx := by omega
    have ey : (row : Int) - n = dy := by omega
    rw [ex, ey]
  · intro event
    have hrad : (TouchMask_new (n : Int)).radius = (n : Int) := rfl
    constructor
    · intro hmem
      rw [mem_painted_coords] at hmem
      obtain ⟨row, col, hr0, hr1, hc0, hc1, hm, hc⟩ := hmem
      rw [hrad] at hr1 hc1 hc
      simp only [Coordinate.mk.injEq] at hc
      have e1 : col = (n : Int) + (n : Int) := by omega
      have e2 : row = 0 + (n : Int) := by omega
      rw [e1, e2] at hm
      have := (hlast 0 (by omega) (by omega)).mp hm
      omega
    · rw [mem_painted_coords]
      refine ⟨-1 + (n : Int), (n : Int) + (n : Int), by omega, by rw [hrad]; omega, by omega,
        by rw [hrad]; omega, (hlast (-1) (by omega) (by omega)).mpr rfl, ?_⟩
      rw [hrad]
      simp only [Coordinate.mk.injEq]
      constructor <;> omega

set_option maxRecDepth 1000000 in
/-- Radius 4, the Down stencil of a 64x64 frame: the cell (4,0) reads 0 and
the cell (4,-1) reads 255, and a touch at (10,10) paints (14,9) but not
(14,10). -/
theorem stencil_stride_shifts_last_column_witness :
    (1 : Int) ≤ 4 ∧
    mask_cell (TouchMask_new 4) (0 + 4) (4 + 4) = 0 ∧
    mask_cell (TouchMask_new 4) (-1 + 4) (4 + 4) = 255 ∧
    (⟨10 + 4, 10⟩ : Coordinate) ∉ painted_coords (TouchMask_new 4) ⟨ACTION.down, ⟨10, 10⟩⟩ ∧
    (⟨10 + 4, 10 - 1⟩ : Coordinate) ∈ painted_coords (TouchMask_new 4) ⟨ACTION.down, ⟨10, 10⟩⟩ :=
  have h := stencil_stride_shifts_last_column 4 (by decide)
  ⟨by decide, by decide, by decide, (h.2.2 ⟨ACTION.down, ⟨10, 10⟩⟩).1,
    (h.2.2 ⟨ACTION.down, ⟨10, 10⟩⟩).2⟩

set_option maxRecDepth 1000000 in
/-- Two Downs at (10,10) on slots 0 and 1: the paint pass leaves the blank
frame as it was, and on the frame with 512 bytes per row the R byte of the
pixel (10,10) is inverted by both indicators, by two calls in all. -/
theorem coincident_indicators_cancel_witness :
    update_active_events (TouchActualizer_new twin_timeline green 64 64) (blank64 0)
      = some twin_state ∧
    slots twin_state.active_events
      = [some ⟨ACTION.down, ⟨10, 10⟩⟩, some ⟨ACTION.down, ⟨10, 10⟩⟩, none, none, none, none,
          none, none, none, none] ∧
    actualizeEvents true twin_state (blank64 0) = blank64 0 ∧
    4 * ((padded64 0).width + 1) ≤ (padded64 0).linesize ∧
    hit_count twin_state (padded64 0) (10 * 512 + 10 * 4)
      = covering_indicators twin_state (padded64 0) (10 * 512 + 10 * 4) ∧
    covering_indicators twin_state (padded64 0) (10 * 512 + 10 * 4) = 2 :=
  ⟨rfl, by decide,
    (coincident_indicators_cancel twin_state (blank64 0)).1 0 1 ⟨ACTION.down, ⟨10, 10⟩⟩
      (by decide) (by decide) (by decide) (by decide),
    by decide,
    (coincident_indicators_cancel twin_state (padded64 0)).2.2 (by decide) (10 * 512 + 10 * 4),
    by decide⟩

end Actualizer
